import Mathlib

/-!
Shallow embedding of the substrate-oracle core (files period_handler.rs,
external_value.rs, oracle.rs, lib.rs) and verification of its design
properties.

Modelling conventions:
* The generic Moment and ValueType parameters are instantiated with Nat,
  following the polymorphic integer-like contract the source requires
  (SimpleArithmetic / BaseArithmetic).  Subtraction is Nat-truncated, which
  agrees with the source on every input where the source does not underflow.
* SourceId is instantiated with Nat; the BTreeMap from the source is embedded
  as an association list kept sorted by key (btreeInsert below), which is how
  a BTreeMap behaves observationally (keyed get, ordered iteration,
  last-insert-wins collect).
* The panicking branch of the source, the unreachable arm inside
  is_can_calculate, is embedded as the value none of an Option Bool result;
  some b is the value the source returns when it does not panic.
* Fallible operations return the mutated state together with an
  Except OracleError result, mirroring self-mutation plus Result in the
  source.
-/

set_option maxHeartbeats 1000000
set_option maxRecDepth 40000

namespace SubstrateOracle

/-- The two parts of one period window, from period_handler.rs. -/
inductive Part where
  | Aggregate
  | Calculate
deriving DecidableEq

/-- Period handler state, from period_handler.rs. -/
structure PeriodHandler where
  begin : Nat
  period : Nat
  aggregate_part : Nat
  last_sources_update : Option Nat
deriving DecidableEq

/-- PeriodHandler::new, from period_handler.rs: fails unless period > aggregate_part. -/
def PeriodHandler.new (now period aggregate_part : Nat) : Option PeriodHandler :=
  if period > aggregate_part then
    some { period := period, aggregate_part := aggregate_part, begin := now,
           last_sources_update := none }
  else
    none

/-- PeriodHandler::get_period, from period_handler.rs. -/
def PeriodHandler.get_period (h : PeriodHandler) (now : Nat) : Nat :=
  (now - h.begin) / h.period

/-- PeriodHandler::get_rest_of_period, from period_handler.rs. -/
def PeriodHandler.get_rest_of_period (h : PeriodHandler) (now : Nat) : Nat :=
  let next_period := h.get_period now + 1
  let next_period_begin := h.begin + next_period * h.period
  next_period_begin - now

/-- PeriodHandler::get_part, from period_handler.rs. -/
def PeriodHandler.get_part (h : PeriodHandler) (now : Nat) : Part :=
  if h.period - h.get_rest_of_period now ≤ h.aggregate_part then
    Part.Aggregate
  else
    Part.Calculate

/-- PeriodHandler::is_can_aggregate, from period_handler.rs. -/
def PeriodHandler.is_can_aggregate (h : PeriodHandler) (now : Nat) : Bool :=
  h.get_part now == Part.Aggregate

/-- PeriodHandler::is_can_calculate, from period_handler.rs.  The source
matches on current_period.cmp(last_period); its Ordering::Less arm executes
the unreachable macro and panics, embedded here as none. -/
def PeriodHandler.is_can_calculate (h : PeriodHandler) (last_update_time : Option Nat)
    (now : Nat) : Option Bool :=
  let current_part := h.get_part now
  match last_update_time with
  | some last_changed =>
      let last_part := h.get_part last_changed
      let current_period := h.get_period now
      let last_period := h.get_period last_changed
      match compare current_period last_period with
      | Ordering.lt => none
      | Ordering.eq => some (last_part == Part.Aggregate && current_part == Part.Calculate)
      | Ordering.gt =>
          match last_part, current_part with
          | _, Part.Calculate => some true
          | Part.Aggregate, Part.Aggregate => some true
          | Part.Calculate, Part.Aggregate => some (current_period - 1 != last_period)
  | none =>
      if h.get_period now == 0 then some (current_part == Part.Calculate)
      else some true

/-- PeriodHandler::set_sources_updated, from period_handler.rs. -/
def PeriodHandler.set_sources_updated (h : PeriodHandler) (now : Nat) : PeriodHandler :=
  { h with last_sources_update := some now }

/-- PeriodHandler::is_sources_update_needed, from period_handler.rs. -/
def PeriodHandler.is_sources_update_needed (h : PeriodHandler) (now : Nat) : Bool :=
  h.is_can_aggregate now &&
    match h.last_sources_update with
    | none => true
    | some last_sources_update => h.get_period last_sources_update < h.get_period now

/-- Median result, from external_value.rs: either the middle value of an
odd-length collection or the two middle values of an even-length one. -/
inductive Median where
  | Value (v : Nat)
  | Pair (left right : Nat)
deriving DecidableEq

/-- get_median, from external_value.rs: sort ascending, then take the middle
element (odd length) or the two middle elements (even length); undefined on
fewer than two elements.  The in-place slice sort of the source is embedded
as insertion sort, a sorted stable permutation. -/
def get_median (values : List Nat) : Option Median :=
  let sorted := List.insertionSort (· ≤ ·) values
  let middle := sorted.length / 2
  if sorted.length ≤ 1 then none
  else if sorted.length % 2 == 0 then
    some (Median.Pair (sorted.getD (middle - 1) 0) (sorted.getD middle 0))
  else
    some (Median.Value (sorted.getD middle 0))

/-- ExternalValue, from external_value.rs: an optional value and the moment it
last changed, both present or both absent. -/
structure ExternalValue where
  value : Option Nat
  last_changed : Option Nat
deriving DecidableEq

/-- The Default instance of the source: both fields None. -/
def ExternalValue.default : ExternalValue := { value := none, last_changed := none }

/-- ExternalValue::clean, from external_value.rs. -/
def ExternalValue.clean (_e : ExternalValue) : ExternalValue :=
  { value := none, last_changed := none }

/-- ExternalValue::update, from external_value.rs. -/
def ExternalValue.update (_e : ExternalValue) (value now : Nat) : ExternalValue :=
  { value := some value, last_changed := some now }

/-- ExternalValue::is_clean, from external_value.rs. -/
def ExternalValue.is_clean (e : ExternalValue) : Bool :=
  e.last_changed.isNone && e.value.isNone

/-- Errors of the oracle aggregator, from oracle.rs. -/
inductive OracleError where
  | FewSources (expected actual : Nat)
  | FewPushedValue (expected actual : Nat)
  | EmptyPushedValueInPeriod
  | WrongValuesCount (expected actual : Nat)
  | WrongValueId (id : Nat)
  | UncalculatedValue (id : Nat)
  | SourcePermissionDenied
  | CalculationError
deriving DecidableEq

instance {ε α : Type} [DecidableEq ε] [DecidableEq α] : DecidableEq (Except ε α) :=
  fun a b =>
    match a, b with
    | Except.ok x, Except.ok y =>
        if h : x = y then isTrue (by rw [h]) else isFalse (by simp [h])
    | Except.error x, Except.error y =>
        if h : x = y then isTrue (by rw [h]) else isFalse (by simp [h])
    | Except.ok _, Except.error _ => isFalse (by simp)
    | Except.error _, Except.ok _ => isFalse (by simp)

/-- Sorted association list standing for the BTreeMap of the source: keyed
get, ordered iteration, insert overwriting an equal key. -/
abbrev BTree (β : Type) : Type := List (Nat × β)

/-- Keyed lookup, the BTreeMap::get of the source. -/
def btreeGet {β : Type} : BTree β → Nat → Option β
  | [], _ => none
  | (k, v) :: rest, key => if key = k then some v else btreeGet rest key

/-- Ordered insert overwriting an equal key, the BTreeMap::insert of the
source (collect of an iterator folds it over the items). -/
def btreeInsert {β : Type} (key : Nat) (val : β) : BTree β → BTree β
  | [] => [(key, val)]
  | (k, v) :: rest =>
      if key < k then (key, val) :: (k, v) :: rest
      else if key = k then (key, val) :: rest
      else (k, v) :: btreeInsert key val rest

/-- Collecting an iterator of pairs into a BTreeMap. -/
def btreeOfList {β : Type} (l : List (Nat × β)) : BTree β :=
  l.foldl (fun m kv => btreeInsert kv.1 kv.2 m) []

/-- Mapping every stored value in place (iter_mut / iter + collect over the
same key set in the source). -/
def btreeMapVals {β γ : Type} (f : Nat → β → γ) (m : BTree β) : BTree γ :=
  m.map (fun kv => (kv.1, f kv.1 kv.2))

/-- In-place mutation of the entry of one key (BTreeMap::get_mut followed by a
write in the source); a missing key leaves the map unchanged. -/
def btreeModify {β : Type} (m : BTree β) (key : Nat) (f : β → β) : BTree β :=
  match m with
  | [] => []
  | (k, v) :: rest =>
      if k = key then (k, f v) :: rest else (k, v) :: btreeModify rest key f

/-- Oracle aggregator state, from oracle.rs.  The table id field of the
source carries no behaviour and is kept as a bare Nat. -/
structure Oracle where
  name : List Nat
  table : Nat
  source_limit : Nat
  period_handler : PeriodHandler
  sources : BTree (List ExternalValue)
  names : List (List Nat)
  values : List ExternalValue
  last_push_period : Option Nat
  prev_period_source : BTree (List (Option ExternalValue))
deriving DecidableEq

/-- Oracle::new, from oracle.rs. -/
def Oracle.new (name : List Nat) (table : Nat) (period_handler : PeriodHandler)
    (source_limit : Nat) (assets_name : List (List Nat)) : Oracle :=
  { name := name
    table := table
    period_handler := period_handler
    source_limit := source_limit
    sources := []
    values := List.replicate assets_name.length ExternalValue.default
    names := assets_name
    last_push_period := none
    prev_period_source := [] }

/-- Oracle::get_values_count, from oracle.rs. -/
def Oracle.get_values_count (o : Oracle) : Nat := o.names.length

/-- Oracle::is_value_id_correct, from oracle.rs. -/
def Oracle.is_value_id_correct (o : Oracle) (value_id : Nat) : Except OracleError Unit :=
  if value_id < o.get_values_count then Except.ok () else
    Except.error (OracleError.WrongValueId value_id)

/-- Oracle::is_sources_enough, from oracle.rs: the source casts the roster
size to u8 before the comparison ((sources.len() as u8) >= source_limit), a
truncating cast embedded as reduction modulo 2^8; source_limit is itself a
u8. -/
def Oracle.is_sources_enough (o : Oracle) : Bool :=
  o.source_limit ≤ o.sources.length % 2 ^ 8

/-- Oracle::is_allow_calculate, from oracle.rs (named may_calculate in the
specification).  It reads values[value_id].last_changed after the id check
and delegates to the period handler; the inner Option Bool carries the
possible panic of is_can_calculate. -/
def Oracle.is_allow_calculate (o : Oracle) (value_id now : Nat) :
    Except OracleError (Option Bool) :=
  match o.is_value_id_correct value_id with
  | Except.error e => Except.error e
  | Except.ok _ =>
      Except.ok (o.period_handler.is_can_calculate
        ((o.values.getD value_id ExternalValue.default).last_changed) now)

/-- Oracle::add_assets, from oracle.rs: appends a name and a clean value slot
but does not touch the per-reporter buffers. -/
def Oracle.add_assets (o : Oracle) (name : List Nat) : Oracle :=
  { o with names := o.names ++ [name], values := o.values ++ [ExternalValue.default] }

/-- Oracle::update_sources, from oracle.rs: rebuilds the roster, keeping the
buffer of every retained reporter and giving a clean buffer of
get_values_count slots to every new one; the rebuilt map is stored before the
size check, so a FewSources error still leaves the new roster in place. -/
def Oracle.update_sources (o : Oracle) (new_sources : List Nat) :
    Oracle × Except OracleError (List Nat) :=
  let default : List ExternalValue :=
    List.replicate o.get_values_count ExternalValue.default
  let rebuilt : BTree (List ExternalValue) :=
    btreeOfList (new_sources.map (fun account =>
      (account, (btreeGet o.sources account).getD default)))
  let o₁ : Oracle := { o with sources := rebuilt }
  if o₁.is_sources_enough then
    (o₁, Except.ok (o₁.sources.map (fun kv => kv.1)))
  else
    (o₁, Except.error (OracleError.FewSources o.source_limit o₁.sources.length))

/-- Oracle::store_pushed_data, from oracle.rs: snapshots the current buffers
into prev_period_source, slot-selectively; a slot whose published value
already belongs to the stored period is masked to None for every reporter. -/
def Oracle.store_pushed_data (o : Oracle) (period_for_store : Nat) : Oracle :=
  let is_need_store_flags : List Bool :=
    o.values.map (fun external =>
      match external.last_changed with
      | some moment => o.period_handler.get_period moment != period_for_store
      | none => true)
  { o with
    prev_period_source :=
      btreeMapVals (fun _source external_vec =>
        (external_vec.zip is_need_store_flags).map (fun vf =>
          if vf.2 then some vf.1 else none)) o.sources }

/-- Oracle::clear_pushed_data, from oracle.rs: cleans every slot of every
reporter buffer. -/
def Oracle.clear_pushed_data (o : Oracle) : Oracle :=
  { o with sources := btreeMapVals (fun _source external_values =>
      external_values.map (fun ext => ext.clean)) o.sources }

/-- The pairwise zip write of Oracle::push_values: slots beyond the pushed
list keep their previous content, pushed values overwrite from the front. -/
def zipUpdate (external_values : List ExternalValue) (new_values : List Nat)
    (now : Nat) : List ExternalValue :=
  match external_values, new_values with
  | [], _ => []
  | es, [] => es
  | e :: es, v :: vs => e.update v now :: zipUpdate es vs now

/-- Oracle::push_values, from oracle.rs: on the first push of a new window it
stores then clears the previous buffers, always records the current window in
last_push_period, and only then looks the caller up in the roster. -/
def Oracle.push_values (o : Oracle) (source now : Nat) (new_values : List Nat) :
    Oracle × Except OracleError Unit :=
  let current := o.period_handler.get_period now
  let o₁ : Oracle :=
    match o.last_push_period with
    | some previous =>
        if previous ≠ current then (o.store_pushed_data previous).clear_pushed_data
        else o
    | none => o
  let o₂ : Oracle := { o₁ with last_push_period := some current }
  match btreeGet o₂.sources source with
  | some external_values =>
      ({ o₂ with sources := (btreeModify o₂.sources source
          (fun _ => zipUpdate external_values new_values now)) }, Except.ok ())
  | none => (o₂, Except.error OracleError.SourcePermissionDenied)

/-- Oracle::get_actual_value_variants, from oracle.rs: the candidate values
for one slot, read from the previous-window snapshot during the Aggregate
part and from the live buffers during the Calculate part. -/
def Oracle.get_actual_value_variants (o : Oracle) (ex_asset_id now : Nat) :
    Except OracleError (List Nat) :=
  match o.is_value_id_correct ex_asset_id with
  | Except.error e => Except.error e
  | Except.ok _ =>
      Except.ok (match o.period_handler.get_part now with
        | Part.Aggregate =>
            o.prev_period_source.filterMap (fun kv =>
              ((kv.2.getD ex_asset_id none).bind (fun asset => asset.value)))
        | Part.Calculate =>
            o.sources.filterMap (fun kv =>
              ((kv.2.getD ex_asset_id ExternalValue.default).value)))

/-- Oracle::pull_value, from oracle.rs. -/
def Oracle.pull_value (o : Oracle) (ex_asset_id : Nat) :
    Except OracleError (Nat × Nat) :=
  match o.is_value_id_correct ex_asset_id with
  | Except.error e => Except.error e
  | Except.ok _ =>
      match (o.values.getD ex_asset_id ExternalValue.default).value,
            (o.values.getD ex_asset_id ExternalValue.default).last_changed with
      | some value, some moment => Except.ok (value, moment)
      | _, _ => Except.error (OracleError.UncalculatedValue ex_asset_id)

/-- Oracle::calculate_value, from oracle.rs: quorum check, freshness check
(clearing the buffers when no push landed in the current window), candidate
assembly, median, and publication of the result into values[value_id]. -/
def Oracle.calculate_value (o : Oracle) (value_id now : Nat) :
    Oracle × Except OracleError Nat :=
  if ¬ o.is_sources_enough then
    (o, Except.error (OracleError.FewSources o.source_limit o.get_values_count))
  else if (match o.last_push_period with
           | some period => o.period_handler.get_period now != period
           | none => true : Bool) then
    (o.clear_pushed_data, Except.error OracleError.EmptyPushedValueInPeriod)
  else
    match o.get_actual_value_variants value_id now with
    | Except.error e => (o, Except.error e)
    | Except.ok values =>
        if values.length < o.source_limit then
          (o, Except.error (OracleError.FewPushedValue o.source_limit values.length))
        else
          match get_median values with
          | some (Median.Value value) =>
              ({ o with values := (o.values.set value_id
                  ((o.values.getD value_id ExternalValue.default).update value now)) },
               Except.ok value)
          | some (Median.Pair left right) =>
              let sum := left + right
              let div := 1 + 1
              ({ o with values := (o.values.set value_id
                  ((o.values.getD value_id ExternalValue.default).update (sum / div) now)) },
               Except.ok (sum / div))
          | none => (o, Except.error OracleError.CalculationError)

/-- Aggregator-level operations: the public mutating methods of Oracle, as
named by the buffer-shape claim (Oracle::new starts the execution). -/
inductive AOp where
  | aupdate (roster : List Nat)
  | aadd (name : List Nat)
  | apush (src now : Nat) (vals : List Nat)
  | acalc (slot now : Nat)

/-- One aggregator-level step: the method runs on the state and its returned
(possibly mutated) state is kept, whether or not it reports an error, exactly
as the methods of oracle.rs mutate self before returning Result. -/
def astep (o : Oracle) : AOp → Oracle
  | AOp.aupdate roster => (o.update_sources roster).1
  | AOp.aadd name => o.add_assets name
  | AOp.apush src now vals => (o.push_values src now vals).1
  | AOp.acalc slot now => (o.calculate_value slot now).1

/-- A sequence of aggregator-level steps. -/
def arun (o : Oracle) (ops : List AOp) : Oracle := ops.foldl astep o

/-- Every add_assets call of the sequence happens while the roster is empty
(the condition under which add_assets keeps the buffer shape). -/
def addsOnlyWhenEmpty : Oracle → List AOp → Prop
  | _, [] => True
  | o, op :: rest =>
      (∀ name, op = AOp.aadd name → o.sources = []) ∧
        addsOnlyWhenEmpty (astep o op) rest

/-- Module-level (dispatched) operations of lib.rs: push, calculate, and the
lazy roster refresh update_accounts, whose incoming roster is the reputation
head the host supplies. -/
inductive MOp where
  | mpush (src : Nat) (vals : List Nat)
  | mcalc (slot : Nat)
  | mrefresh (roster : List Nat)

/-- One dispatched step of lib.rs at moment now, paired with whether it
succeeded.  A dispatch that returns an error discards the storage overlay, so
a failed step leaves the state unchanged; a push is gated by
is_can_aggregate, a calculate by is_allow_calculate returning true (a panic
of the gate, the none value, also aborts the dispatch). -/
def mstep (o : Oracle) (now : Nat) : MOp → Oracle × Bool
  | MOp.mrefresh roster =>
      match o.update_sources roster with
      | (o₁, Except.ok _) => (o₁, true)
      | (_, Except.error _) => (o, false)
  | MOp.mpush src vals =>
      if o.period_handler.is_can_aggregate now then
        match o.push_values src now vals with
        | (o₁, Except.ok _) => (o₁, true)
        | (_, Except.error _) => (o, false)
      else (o, false)
  | MOp.mcalc slot =>
      match o.is_allow_calculate slot now with
      | Except.ok (some true) =>
          match o.calculate_value slot now with
          | (o₁, Except.ok _) => (o₁, true)
          | (_, Except.error _) => (o, false)
      | _ => (o, false)

/-- A sequence of dispatched steps, each tagged with its moment. -/
def mrun (o : Oracle) (trace : List (Nat × MOp)) : Oracle :=
  trace.foldl (fun s p => (mstep s p.1 p.2).1) o

/-- No step of the trace is a successful dispatched calculate on the given
slot. -/
def noCalcSuccessOn (slot : Nat) : Oracle → List (Nat × MOp) → Prop
  | _, [] => True
  | o, (now, op) :: rest =>
      ¬ (op = MOp.mcalc slot ∧ (mstep o now op).2 = true) ∧
        noCalcSuccessOn slot (mstep o now op).1 rest

/-- The mathematical median of a multiset, stated from the specification: the
middle element of the ascending enumeration for an odd cardinality, the floor
of the exact average of the two middle elements for an even cardinality of at
least two, undefined below cardinality two.  The intermediate sum is an
unbounded natural number, so it cannot overflow. -/
def medianSpec (m : Multiset Nat) : Option Nat :=
  let s := Multiset.sort (· ≤ ·) m
  if s.length ≤ 1 then none
  else if s.length % 2 = 0 then
    some ((s.getD (s.length / 2 - 1) 0 + s.getD (s.length / 2) 0) / 2)
  else
    some (s.getD (s.length / 2) 0)

/-- The slot-selective snapshot relation of the window-transition claim,
relating the roster buffers before the transition to prev_period_source
after it: for each slot i, every reporter's entry is carried over (Some)
exactly when the published value of slot i has no last_changed moment or its
window differs from prev, and is None across all reporters otherwise. -/
def SnapshotSpec (o o' : Oracle) (prev : Nat) : Prop :=
  (∀ s, (btreeGet o'.prev_period_source s).isSome = (btreeGet o.sources s).isSome) ∧
  (∀ s buf, btreeGet o.sources s = some buf →
    ∃ pbuf, btreeGet o'.prev_period_source s = some pbuf ∧
      pbuf.length = min buf.length o.values.length ∧
      (∀ i, i < pbuf.length →
        pbuf.getD i none =
          (if (match (o.values.getD i ExternalValue.default).last_changed with
               | some m => o.period_handler.get_period m != prev
               | none => true : Bool) = true
           then some (buf.getD i ExternalValue.default) else none)))

/-- Every reporter buffer of the state is all-clean. -/
def AllBuffersClean (o' : Oracle) : Prop :=
  ∀ s buf, btreeGet o'.sources s = some buf →
    ∀ i, i < buf.length → buf.getD i ExternalValue.default = ExternalValue.mk none none

/-- The reporter buffers after a push that performed the window transition:
every buffer was cleared to all-clean first, then the caller's buffer was
overwritten pairwise with the pushed values at moment now. -/
def BuffersAfterTransitionPush (o o' : Oracle) (src now : Nat) (vals : List Nat) : Prop :=
  (∀ s, (btreeGet o'.sources s).isSome = (btreeGet o.sources s).isSome) ∧
  (∀ s buf, btreeGet o.sources s = some buf →
    ∃ buf', btreeGet o'.sources s = some buf' ∧ buf'.length = buf.length ∧
      ∀ i, i < buf.length →
        buf'.getD i ExternalValue.default =
          (if s = src ∧ i < vals.length
           then ExternalValue.mk (some (vals.getD i 0)) (some now)
           else ExternalValue.mk none none))

/-- The reporter buffers after a push that performed no window transition:
only the caller's buffer changes, overwritten pairwise from the front. -/
def BuffersAfterPlainPush (o o' : Oracle) (src now : Nat) (vals : List Nat) : Prop :=
  (∀ s, (btreeGet o'.sources s).isSome = (btreeGet o.sources s).isSome) ∧
  (∀ s buf, btreeGet o.sources s = some buf →
    ∃ buf', btreeGet o'.sources s = some buf' ∧ buf'.length = buf.length ∧
      ∀ i, i < buf.length →
        buf'.getD i ExternalValue.default =
          (if s = src ∧ i < vals.length
           then ExternalValue.mk (some (vals.getD i 0)) (some now)
           else buf.getD i ExternalValue.default))

/-- The period handler used by the concrete states below: begin 0, period 10,
aggregate_part 5 (so windows are 0..9, 10..19, ...; offsets 0..5 are the
Aggregate part and offsets 6..9 the Calculate part). -/
def exHandler : PeriodHandler :=
  { begin := 0, period := 10, aggregate_part := 5, last_sources_update := none }

/-- A two-slot oracle with source_limit 1 and roster {1}, fresh from
creation plus one roster update. -/
def exTwoSlot : Oracle :=
  ((Oracle.new [0] 0 exHandler 1 [[0], [1]]).update_sources [1]).1

/-- exTwoSlot after reporter 1 pushed both slots at moment 0 (window 0). -/
def exPushed : Oracle := (exTwoSlot.push_values 1 0 [3, 4]).1

/-- A one-slot oracle with source_limit 2 and roster {1, 2} after pushes of
3 (reporter 1, moment 0) and 8 (reporter 2, moment 1), both in window 0. -/
def exQuorum : Oracle :=
  ((((Oracle.new [0] 0 exHandler 2 [[0]]).update_sources [1, 2]).1.push_values
      1 0 [3]).1.push_values 2 1 [8]).1

/-- A one-slot oracle with source_limit 1 whose roster holds 256 reporters
(keys 0..255, presented descending), so the u8-cast roster size wraps to 0
and the quorum check fails although 256 ≥ 1. -/
def o256 : Oracle :=
  ((Oracle.new [] 0 exHandler 1 [[0]]).update_sources ((List.range 256).reverse)).1

/-- A dispatched trace with non-decreasing moments: the roster {1, 2} is
installed, both reporters push in window 0 (moments 0 and 1), both push again
in window 1 (moments 10 and 11, firing the window transition), and the
roster refresh the module forces at moment 12 runs; no calculate succeeds
inside it. -/
def exTrace0 : List (Nat × MOp) :=
  [(0, MOp.mrefresh [1, 2]), (0, MOp.mpush 1 [7]), (1, MOp.mpush 2 [8]),
   (10, MOp.mpush 1 [9]), (11, MOp.mpush 2 [11]), (12, MOp.mrefresh [1, 2])]

/-- The state reached by exTrace0 from a fresh one-slot oracle with
source_limit 2. -/
def exS1 : Oracle := mrun (Oracle.new [0] 0 exHandler 2 [[0]]) exTrace0

/-- exS1 after a successful dispatched calculate of slot 0 at moment 12
(window 1, Aggregate part: the carry-over publication for window 0). -/
def exS2 : Oracle := (mstep exS1 12 (MOp.mcalc 0)).1

/-- Keyed lookup after a value-wise map. -/
theorem btreeGet_mapVals {β γ : Type} (f : Nat → β → γ) (m : BTree β) (k : Nat) :
    btreeGet (btreeMapVals f m) k = (btreeGet m k).map (f k) := by
  induction m with
  | nil => rfl
  | cons kv rest ih =>
      obtain ⟨k₀, v₀⟩ := kv
      by_cases hk : k = k₀
      · simp [btreeMapVals, btreeGet, hk]
      · simp only [btreeMapVals, List.map_cons, btreeGet, if_neg hk]
        simpa [btreeMapVals] using ih

/-- Keyed lookup after an in-place modification of one key. -/
theorem btreeGet_modify {β : Type} (m : BTree β) (key : Nat) (f : β → β) (k : Nat) :
    btreeGet (btreeModify m key f) k =
      if k = key then (btreeGet m k).map f else btreeGet m k := by
  induction m with
  | nil => simp [btreeModify, btreeGet]
  | cons kv rest ih =>
      obtain ⟨k₀, v₀⟩ := kv
      by_cases hkey : k₀ = key
      · subst hkey
        by_cases hk : k = k₀ <;> simp [btreeModify, btreeGet, hk]
      · by_cases hk : k = k₀
        · subst hk
          have hne : ¬ k = key := hkey
          simp [btreeModify, btreeGet, hkey, hne]
        · simp [btreeModify, btreeGet, hkey, hk, ih]

/-- Keyed lookup after an ordered insert. -/
theorem btreeGet_insert {β : Type} (key : Nat) (val : β) (m : BTree β) (k : Nat) :
    btreeGet (btreeInsert key val m) k =
      if k = key then some val else btreeGet m k := by
  induction m with
  | nil => simp [btreeInsert, btreeGet]
  | cons kv rest ih =>
      obtain ⟨k₀, v₀⟩ := kv
      simp only [btreeInsert]
      by_cases h1 : key < k₀
      · rw [if_pos h1]
        rfl
      · simp only [if_neg h1]
        by_cases h2 : key = k₀
        · subst h2
          by_cases hk : k = key <;> simp [btreeGet, hk]
        · simp only [if_neg h2, btreeGet]
          by_cases hk0 : k = k₀
          · have hnk : ¬ k = key := by omega
            have hnk0 : ¬ k₀ = key := fun h => h2 h.symm
            simp [hk0, hnk, hnk0]
          · simp [hk0, ih]

/-- A key found in a collected map was one of the collected pairs. -/
theorem btreeGet_ofList_mem {β : Type} (l : List (Nat × β)) (k : Nat) (v : β) :
    btreeGet (btreeOfList l) k = some v → (k, v) ∈ l := by
  suffices h : ∀ acc : BTree β, btreeGet (l.foldl (fun m kv => btreeInsert kv.1 kv.2 m) acc) k
      = some v → (k, v) ∈ l ∨ btreeGet acc k = some v by
    intro hget
    rcases h [] hget with hmem | hnil
    · exact hmem
    · simp [btreeGet] at hnil
  induction l with
  | nil => intro acc h; exact Or.inr h
  | cons kv rest ih =>
      obtain ⟨k₁, v₁⟩ := kv
      intro acc h
      rcases ih (btreeInsert k₁ v₁ acc) h with hmem | hacc
      · exact Or.inl (List.mem_cons_of_mem _ hmem)
      · rw [btreeGet_insert] at hacc
        by_cases hk : k = k₁
        · rw [if_pos hk] at hacc
          obtain rfl : v₁ = v := Option.some.inj hacc
          exact Or.inl (by rw [hk]; exact List.mem_cons_self _ _)
        · rw [if_neg hk] at hacc
          exact Or.inr hacc

/-- zipUpdate keeps the buffer length. -/
theorem zipUpdate_length (es : List ExternalValue) (vs : List Nat) (now : Nat) :
    (zipUpdate es vs now).length = es.length := by
  induction es generalizing vs with
  | nil => cases vs <;> rfl
  | cons e es ih =>
      cases vs with
      | nil => rfl
      | cons v vs => simp [zipUpdate, ih]

/-- zipUpdate slot-wise: pushed slots are overwritten with value and moment,
the rest keep their previous content. -/
theorem zipUpdate_getD (es : List ExternalValue) (vs : List Nat) (now i : Nat)
    (hi : i < es.length) :
    (zipUpdate es vs now).getD i ExternalValue.default =
      (if i < vs.length then ExternalValue.mk (some (vs.getD i 0)) (some now)
       else es.getD i ExternalValue.default) := by
  induction es generalizing vs i with
  | nil => simp at hi
  | cons e es ih =>
      cases vs with
      | nil => simp [zipUpdate]
      | cons v vs =>
          cases i with
          | zero => simp [zipUpdate, ExternalValue.update]
          | succ j =>
              have hj : j < es.length := by simpa using hi
              simp only [zipUpdate, List.getD_cons_succ, List.length_cons,
                Nat.add_lt_add_iff_right]
              exact ih vs j hj

/-- The elapsed offset inside the current window: for a moment at or after
begin, period minus get_rest_of_period is the remainder of (now - begin)
modulo period. -/
theorem PeriodHandler.elapsed_eq_mod (h : PeriodHandler) (now : Nat)
    (hper : 0 < h.period) (hb : h.begin ≤ now) :
    h.period - h.get_rest_of_period now = (now - h.begin) % h.period := by
  unfold PeriodHandler.get_rest_of_period PeriodHandler.get_period
  have hdm : h.period * ((now - h.begin) / h.period) + (now - h.begin) % h.period
      = now - h.begin := Nat.div_add_mod (now - h.begin) h.period
  have hmlt : (now - h.begin) % h.period < h.period := Nat.mod_lt _ hper
  have hmul : ((now - h.begin) / h.period + 1) * h.period
      = h.period * ((now - h.begin) / h.period) + h.period := by ring
  simp only [hmul]
  omega

/-- get_part phrased through the window offset: Aggregate exactly when the
offset (now - begin) mod period is at most aggregate_part. -/
theorem PeriodHandler.get_part_eq_if (h : PeriodHandler) (now : Nat)
    (hper : 0 < h.period) (hb : h.begin ≤ now) :
    h.get_part now =
      (if (now - h.begin) % h.period ≤ h.aggregate_part then Part.Aggregate
       else Part.Calculate) := by
  unfold PeriodHandler.get_part
  rw [h.elapsed_eq_mod now hper hb]

/-- Window numbers are monotone in time. -/
theorem PeriodHandler.get_period_mono (h : PeriodHandler) {t₁ t₂ : Nat} (ht : t₁ ≤ t₂) :
    h.get_period t₁ ≤ h.get_period t₂ :=
  Nat.div_le_div_right (Nat.sub_le_sub_right ht _)

/-- Claim C4, counterexample: with begin 0, period 10, aggregate_part 5, the
moment t = 5 has offset (t - begin) mod period = 5, not below aggregate_part,
yet get_part gives Aggregate; so Aggregate is not equivalent to the offset
being strictly below aggregate_part. -/
theorem get_part_boundary_counterexample :
    (PeriodHandler.mk 0 10 5 none).get_part 5 = Part.Aggregate ∧
      (5 - (PeriodHandler.mk 0 10 5 none).begin) % (PeriodHandler.mk 0 10 5 none).period = 5 ∧
      ¬ ((5 - (PeriodHandler.mk 0 10 5 none).begin) % (PeriodHandler.mk 0 10 5 none).period
          < (PeriodHandler.mk 0 10 5 none).aggregate_part) := by
  refine ⟨by decide, by decide, by decide⟩

/-- Claim C4 (amended): for every period handler with period > aggregate_part
and every moment t at or after begin, with k = (t - begin) mod period the
offset inside the window of t, get_part t is Aggregate exactly when
k ≤ aggregate_part (the first aggregate_part + 1 time units of the window)
and Calculate for the remainder of the window. -/
theorem get_part_aggregate_iff_offset_le (h : PeriodHandler) (t : Nat)
    (hpa : h.aggregate_part < h.period) (hb : h.begin ≤ t) :
    (h.get_part t = Part.Aggregate ↔ (t - h.begin) % h.period ≤ h.aggregate_part) ∧
    (h.get_part t = Part.Calculate ↔ h.aggregate_part < (t - h.begin) % h.period) := by
  have hper : 0 < h.period := Nat.lt_of_le_of_lt (Nat.zero_le _) hpa
  rw [h.get_part_eq_if t hper hb]
  by_cases hc : (t - h.begin) % h.period ≤ h.aggregate_part <;> simp [hc] <;> omega

/-- Claim C4 witness: the amended statement applied to the handler with
begin 0, period 10, aggregate_part 5 at moment t = 3. -/
theorem get_part_offset_witness :
    ((PeriodHandler.mk 0 10 5 none).get_part 3 = Part.Aggregate ↔
       (3 - (PeriodHandler.mk 0 10 5 none).begin) % (PeriodHandler.mk 0 10 5 none).period
         ≤ (PeriodHandler.mk 0 10 5 none).aggregate_part) ∧
    ((PeriodHandler.mk 0 10 5 none).get_part 3 = Part.Calculate ↔
       (PeriodHandler.mk 0 10 5 none).aggregate_part
         < (3 - (PeriodHandler.mk 0 10 5 none).begin) % (PeriodHandler.mk 0 10 5 none).period) :=
  get_part_aggregate_iff_offset_le (PeriodHandler.mk 0 10 5 none) 3 (by decide) (by decide)

/-- Claim C1: for a period handler with period > aggregate_part and moments
at or after begin with window(last) ≤ window(now), is_can_calculate returns
true in exactly four cases: (a) last is None, window(now) = 0 and
part(now) = Calculate; (b) last is None and window(now) > 0; (c) last is
Some t in the same window with part(t) = Aggregate and part(now) = Calculate;
(d) last is Some t in an earlier window, except that it is false when
part(t) = Calculate, window(t) = window(now) - 1 and part(now) = Aggregate. -/
theorem is_can_calculate_characterization (h : PeriodHandler) (last : Option Nat)
    (now : Nat) (hpa : h.aggregate_part < h.period)
    (hlast : ∀ t, last = some t → h.get_period t ≤ h.get_period now) :
    h.is_can_calculate last now = some true ↔
      ((last = none ∧ h.get_period now = 0 ∧ h.get_part now = Part.Calculate) ∨
       (last = none ∧ 0 < h.get_period now) ∨
       (∃ t, last = some t ∧ h.get_period t = h.get_period now ∧
         h.get_part t = Part.Aggregate ∧ h.get_part now = Part.Calculate) ∨
       (∃ t, last = some t ∧ h.get_period t < h.get_period now ∧
         ¬ (h.get_part t = Part.Calculate ∧ h.get_period t = h.get_period now - 1 ∧
            h.get_part now = Part.Aggregate))) := by
  cases last with
  | none =>
      simp only [PeriodHandler.is_can_calculate]
      by_cases h0 : h.get_period now = 0
      · simp only [h0, beq_self_eq_true, if_true, beq_iff_eq]
        cases hpn : h.get_part now <;> simp [hpn]
      · have hne : (h.get_period now == 0) = false := by
          simp [h0]
        simp [hne, Nat.pos_of_ne_zero h0]
  | some t =>
      have hle : h.get_period t ≤ h.get_period now := hlast t rfl
      rcases Nat.lt_or_ge (h.get_period t) (h.get_period now) with hlt | hge
      · have hcmp : compare (h.get_period now) (h.get_period t) = Ordering.gt :=
          Nat.compare_eq_gt.mpr hlt
        simp only [PeriodHandler.is_can_calculate, hcmp]
        have hne : h.get_period t ≠ h.get_period now := Nat.ne_of_lt hlt
        cases hpt : h.get_part t <;> cases hpn : h.get_part now <;>
          simp [hpt, hpn, hne, hlt, bne_iff_ne] <;> omega
      · have heq : h.get_period t = h.get_period now := Nat.le_antisymm hle hge
        have hcmp : compare (h.get_period now) (h.get_period t) = Ordering.eq :=
          Nat.compare_eq_eq.mpr heq.symm
        simp only [PeriodHandler.is_can_calculate, hcmp]
        have hnlt : ¬ h.get_period t < h.get_period now := by omega
        cases hpt : h.get_part t <;> cases hpn : h.get_part now <;>
          simp [hpt, hpn, heq, hnlt]

/-- Claim C1 witness: the characterization applied to the handler with
begin 0, period 10, aggregate_part 5, last = Some 3 and now = 7 (both in
window 0; 3 is in the Aggregate part, 7 in the Calculate part). -/
theorem is_can_calculate_characterization_witness :
    (PeriodHandler.mk 0 10 5 none).is_can_calculate (some 3) 7 = some true ↔
      ((some 3 = none ∧ (PeriodHandler.mk 0 10 5 none).get_period 7 = 0 ∧
          (PeriodHandler.mk 0 10 5 none).get_part 7 = Part.Calculate) ∨
       (some 3 = none ∧ 0 < (PeriodHandler.mk 0 10 5 none).get_period 7) ∨
       (∃ t, some 3 = some t ∧
         (PeriodHandler.mk 0 10 5 none).get_period t
           = (PeriodHandler.mk 0 10 5 none).get_period 7 ∧
         (PeriodHandler.mk 0 10 5 none).get_part t = Part.Aggregate ∧
         (PeriodHandler.mk 0 10 5 none).get_part 7 = Part.Calculate) ∨
       (∃ t, some 3 = some t ∧
         (PeriodHandler.mk 0 10 5 none).get_period t
           < (PeriodHandler.mk 0 10 5 none).get_period 7 ∧
         ¬ ((PeriodHandler.mk 0 10 5 none).get_part t = Part.Calculate ∧
            (PeriodHandler.mk 0 10 5 none).get_period t
              = (PeriodHandler.mk 0 10 5 none).get_period 7 - 1 ∧
            (PeriodHandler.mk 0 10 5 none).get_part 7 = Part.Aggregate))) :=
  is_can_calculate_characterization (PeriodHandler.mk 0 10 5 none) (some 3) 7
    (by decide) (by intro t ht; cases ht; decide)

/-- Claim C6: with last_update_time in a strictly later window than now, the
source executes the unreachable macro and panics (embedded as none) instead
of reporting CalculationError; shown at begin 0, period 10, aggregate_part 5,
last = Some 10 (window 1), now = 0 (window 0). -/
theorem is_can_calculate_future_last_hits_unreachable :
    (PeriodHandler.mk 0 10 5 none).is_can_calculate (some 10) 0 = none ∧
      (PeriodHandler.mk 0 10 5 none).get_period 10 = 1 ∧
      (PeriodHandler.mk 0 10 5 none).get_period 0 = 0 := by
  refine ⟨by decide, by decide, by decide⟩

/-- A cleaned buffer reads all-clean at every slot. -/
theorem getD_map_clean (buf : List ExternalValue) (i : Nat) (hi : i < buf.length) :
    (buf.map (fun ext => ext.clean)).getD i ExternalValue.default
      = ExternalValue.mk none none := by
  rw [List.getD_eq_getElem _ _ (by simpa using hi), List.getElem_map]
  rfl

/-- clear_pushed_data leaves every reporter buffer all-clean. -/
theorem allBuffersClean_clear (o : Oracle) : AllBuffersClean o.clear_pushed_data := by
  intro s buf hbuf i hi
  simp only [Oracle.clear_pushed_data] at hbuf
  rw [btreeGet_mapVals] at hbuf
  cases hold : btreeGet o.sources s with
  | none => rw [hold] at hbuf; cases hbuf
  | some old =>
      rw [hold] at hbuf
      obtain rfl : old.map (fun ext => ext.clean) = buf := Option.some.inj hbuf
      exact getD_map_clean old i (by simpa using hi)

/-- store_pushed_data realises the slot-selective snapshot relation. -/
theorem snapshotSpec_store (o : Oracle) (prev : Nat) :
    SnapshotSpec o (o.store_pushed_data prev) prev := by
  constructor
  · intro s
    simp only [Oracle.store_pushed_data]
    rw [btreeGet_mapVals]
    cases btreeGet o.sources s <;> rfl
  · intro s buf hbuf
    simp only [Oracle.store_pushed_data]
    rw [btreeGet_mapVals, hbuf]
    refine ⟨_, rfl, ?_, ?_⟩
    · simp
    · intro i hi
      simp only [List.length_map, List.length_zip, List.length_map] at hi
      have hib : i < buf.length := lt_of_lt_of_le hi (by simp [Nat.min_le_left])
      have hiv : i < o.values.length := lt_of_lt_of_le hi (by simp [Nat.min_le_right])
      have hiz : i < (buf.zip (o.values.map (fun external =>
          match external.last_changed with
          | some moment => o.period_handler.get_period moment != prev
          | none => true))).length := by
        simp [List.length_zip]
        omega
      rw [List.getD_eq_getElem _ _ (by simpa using hiz), List.getElem_map,
        List.getElem_zip, List.getD_eq_getElem _ _ hiv, List.getD_eq_getElem _ _ hib]
      simp [List.getElem_map]

/-- SnapshotSpec constrains only the prev_period_source field of the second
state, so it transfers along equality of that field. -/
theorem snapshotSpec_congr (o o₁ o₂ : Oracle) (prev : Nat)
    (h : SnapshotSpec o o₁ prev)
    (heq : o₂.prev_period_source = o₁.prev_period_source) :
    SnapshotSpec o o₂ prev := by
  obtain ⟨h1, h2⟩ := h
  exact ⟨fun s => by rw [heq]; exact h1 s,
         fun s buf hbuf => by rw [heq]; exact h2 s buf hbuf⟩

/-- AllBuffersClean constrains only the sources field, so it transfers along
equality of that field. -/
theorem allBuffersClean_congr (o₁ o₂ : Oracle) (h : AllBuffersClean o₁)
    (heq : o₂.sources = o₁.sources) : AllBuffersClean o₂ := by
  intro s buf hbuf i hi
  exact h s buf (heq ▸ hbuf) i hi

/-- Claim C7, counterexample: an oracle with 256 reporters and
source_limit 1 satisfies |sources| ≥ source_limit, holds no push for the
window of moment 7 (last_push_period is None), and yet calculate_value fails
with FewSources, not EmptyPushedValueInPeriod: the source compares
sources.len() as u8, and the cast wraps 256 to 0. -/
theorem calculate_quorum_cast_counterexample :
    o256.sources.length = 256 ∧
    o256.source_limit = 1 ∧
    o256.is_sources_enough = false ∧
    o256.last_push_period ≠ some (o256.period_handler.get_period 7) ∧
    (o256.calculate_value 0 7).2 = Except.error (OracleError.FewSources 1 1) := by
  refine ⟨by decide, by decide, by decide, by decide, by decide⟩

/-- Claim C7 (amended): for every oracle whose roster passes the code's
quorum check (source_limit ≤ roster size reduced modulo 2^8, which is
|sources| ≥ source_limit whenever |sources| ≤ 255) and with no push recorded
for the window of now (including the fresh state with
last_push_period = None), calculate_value clears every reporter buffer,
fails with EmptyPushedValueInPeriod, and leaves values and
prev_period_source unchanged. -/
theorem calculate_value_no_push_in_window (o : Oracle) (slot now : Nat)
    (henough : o.is_sources_enough = true)
    (hfresh : o.last_push_period ≠ some (o.period_handler.get_period now)) :
    o.calculate_value slot now
        = (o.clear_pushed_data, Except.error OracleError.EmptyPushedValueInPeriod) ∧
    (o.clear_pushed_data).values = o.values ∧
    (o.clear_pushed_data).prev_period_source = o.prev_period_source ∧
    (∀ s, (btreeGet (o.clear_pushed_data).sources s).isSome
        = (btreeGet o.sources s).isSome) ∧
    (∀ s buf buf', btreeGet o.sources s = some buf →
      btreeGet (o.clear_pushed_data).sources s = some buf' →
        buf'.length = buf.length) ∧
    AllBuffersClean o.clear_pushed_data := by
  have hguard : (match o.last_push_period with
      | some period => o.period_handler.get_period now != period
      | none => true : Bool) = true := by
    cases hlp : o.last_push_period with
    | none => rfl
    | some p =>
        simp only [bne_iff_ne, ne_eq, decide_not]
        intro hp
        exact hfresh (by rw [hlp, hp])
  refine ⟨?_, rfl, rfl, ?_, ?_, allBuffersClean_clear o⟩
  · simp [Oracle.calculate_value, henough, hguard]
  · intro s
    simp only [Oracle.clear_pushed_data]
    rw [btreeGet_mapVals]
    cases btreeGet o.sources s <;> rfl
  · intro s buf buf' hbuf hbuf'
    simp only [Oracle.clear_pushed_data] at hbuf'
    rw [btreeGet_mapVals, hbuf] at hbuf'
    obtain rfl : buf.map (fun ext => ext.clean) = buf' := Option.some.inj hbuf'
    simp

/-- Claim C7 witness: the statement applied to exTwoSlot (roster size 1,
source_limit 1, last_push_period None) at slot 0 and moment 7. -/
theorem calculate_value_no_push_witness :
    exTwoSlot.calculate_value 0 7
        = (exTwoSlot.clear_pushed_data, Except.error OracleError.EmptyPushedValueInPeriod) ∧
    (exTwoSlot.clear_pushed_data).values = exTwoSlot.values ∧
    (exTwoSlot.clear_pushed_data).prev_period_source = exTwoSlot.prev_period_source ∧
    (∀ s, (btreeGet (exTwoSlot.clear_pushed_data).sources s).isSome
        = (btreeGet exTwoSlot.sources s).isSome) ∧
    (∀ s buf buf', btreeGet exTwoSlot.sources s = some buf →
      btreeGet (exTwoSlot.clear_pushed_data).sources s = some buf' →
        buf'.length = buf.length) ∧
    AllBuffersClean exTwoSlot.clear_pushed_data :=
  calculate_value_no_push_in_window exTwoSlot 0 7 (by decide) (by decide)

/-- Claim C5: the source accepts a pushed list shorter than the slot count,
returns Ok and stores the provided prefix, instead of failing with
WrongValuesCount(2, 1) and storing nothing: exTwoSlot has two slots, yet a
push of the single value 42 at moment 0 succeeds and updates slot 0. -/
theorem push_values_length_mismatch_accepted :
    exTwoSlot.get_values_count = 2 ∧
    (exTwoSlot.push_values 1 0 [42]).2 = Except.ok () ∧
    btreeGet (exTwoSlot.push_values 1 0 [42]).1.sources 1
      = some [ExternalValue.mk (some 42) (some 0), ExternalValue.mk none none] := by
  refine ⟨by decide, by decide, by decide⟩

/-- Claim C10: push_values is not atomic at the aggregator level: for a
caller outside the roster it returns SourcePermissionDenied, yet it has
already recorded the window of now in last_push_period, and, when the
previous push lay in an earlier window, has already rewritten
prev_period_source from the old buffers (slot-selectively) and cleared every
reporter buffer; values stay unchanged. -/
theorem push_values_denied_still_mutates (o : Oracle) (src now : Nat)
    (vals : List Nat) (hsrc : btreeGet o.sources src = none) :
    (o.push_values src now vals).2 = Except.error OracleError.SourcePermissionDenied ∧
    (o.push_values src now vals).1.last_push_period
      = some (o.period_handler.get_period now) ∧
    (o.push_values src now vals).1.values = o.values ∧
    (∀ prev, o.last_push_period = some prev →
      prev ≠ o.period_handler.get_period now →
      SnapshotSpec o (o.push_values src now vals).1 prev ∧
      AllBuffersClean (o.push_values src now vals).1) := by
  cases hlp : o.last_push_period with
  | none =>
      have hred : o.push_values src now vals =
          ({ o with last_push_period := some (o.period_handler.get_period now) },
           Except.error OracleError.SourcePermissionDenied) := by
        simp only [Oracle.push_values, hlp]
        simp [hsrc]
      refine ⟨by rw [hred], by rw [hred], by rw [hred], ?_⟩
      intro prev hprev
      cases hprev
  | some prev₀ =>
      by_cases hne : prev₀ ≠ o.period_handler.get_period now
      · have hget2 : btreeGet ((o.store_pushed_data prev₀).clear_pushed_data).sources src
            = none := by
          simp only [Oracle.clear_pushed_data, Oracle.store_pushed_data]
          rw [btreeGet_mapVals, hsrc]
          rfl
        have hred : o.push_values src now vals =
            ({ (o.store_pushed_data prev₀).clear_pushed_data with
                last_push_period := some (o.period_handler.get_period now) },
             Except.error OracleError.SourcePermissionDenied) := by
          simp only [Oracle.push_values, hlp, if_pos hne]
          simp [hget2]
        refine ⟨by rw [hred], by rw [hred], by rw [hred]; rfl, ?_⟩
        intro prev hprev hne₂
        obtain rfl : prev₀ = prev := Option.some.inj hprev
        constructor
        · refine snapshotSpec_congr o (o.store_pushed_data prev₀) _ prev₀
            (snapshotSpec_store o prev₀) ?_
          rw [hred]
          rfl
        · refine allBuffersClean_congr ((o.store_pushed_data prev₀).clear_pushed_data) _
            (allBuffersClean_clear (o.store_pushed_data prev₀)) ?_
          rw [hred]
      · have hred : o.push_values src now vals =
            ({ o with last_push_period := some (o.period_handler.get_period now) },
             Except.error OracleError.SourcePermissionDenied) := by
          simp only [Oracle.push_values, hlp, if_neg hne]
          simp [hsrc]
        refine ⟨by rw [hred], by rw [hred], by rw [hred], ?_⟩
        intro prev hprev hne₂
        obtain rfl : prev₀ = prev := Option.some.inj hprev
        exact absurd hne₂ hne

/-- Claim C10 witness: the statement applied to exPushed (roster {1},
last_push_period Some 0) with the unknown caller 5 pushing at moment 12
(window 1, so the window transition fires before the denial). -/
theorem push_values_denied_witness :
    (exPushed.push_values 5 12 [7, 8]).2
        = Except.error OracleError.SourcePermissionDenied ∧
    (exPushed.push_values 5 12 [7, 8]).1.last_push_period
      = some (exPushed.period_handler.get_period 12) ∧
    (exPushed.push_values 5 12 [7, 8]).1.values = exPushed.values ∧
    (∀ prev, exPushed.last_push_period = some prev →
      prev ≠ exPushed.period_handler.get_period 12 →
      SnapshotSpec exPushed (exPushed.push_values 5 12 [7, 8]).1 prev ∧
      AllBuffersClean (exPushed.push_values 5 12 [7, 8]).1) :=
  push_values_denied_still_mutates exPushed 5 12 [7, 8] (by decide)

/-- push_values reduced: transition fires and the caller is in the roster. -/
theorem push_values_eq_transition_found (o : Oracle) (src now : Nat) (vals : List Nat)
    (prev : Nat) (hlp : o.last_push_period = some prev)
    (hne : prev ≠ o.period_handler.get_period now)
    (buf : List ExternalValue) (hbuf : btreeGet o.sources src = some buf) :
    o.push_values src now vals =
      ({ (o.store_pushed_data prev).clear_pushed_data with
          last_push_period := some (o.period_handler.get_period now),
          sources := (btreeModify ((o.store_pushed_data prev).clear_pushed_data).sources
            src (fun _ => zipUpdate (buf.map (fun ext => ext.clean)) vals now)) },
       Except.ok ()) := by
  have hgetc : btreeGet ((o.store_pushed_data prev).clear_pushed_data).sources src
      = some (buf.map (fun ext => ext.clean)) := by
    simp only [Oracle.clear_pushed_data, Oracle.store_pushed_data]
    rw [btreeGet_mapVals, hbuf]
    rfl
  simp only [Oracle.push_values, hlp, if_pos hne]
  simp [hgetc]

/-- push_values reduced: transition fires and the caller is not in the
roster. -/
theorem push_values_eq_transition_missing (o : Oracle) (src now : Nat)
    (vals : List Nat) (prev : Nat) (hlp : o.last_push_period = some prev)
    (hne : prev ≠ o.period_handler.get_period now)
    (hbuf : btreeGet o.sources src = none) :
    o.push_values src now vals =
      ({ (o.store_pushed_data prev).clear_pushed_data with
          last_push_period := some (o.period_handler.get_period now) },
       Except.error OracleError.SourcePermissionDenied) := by
  have hgetc : btreeGet ((o.store_pushed_data prev).clear_pushed_data).sources src
      = none := by
    simp only [Oracle.clear_pushed_data, Oracle.store_pushed_data]
    rw [btreeGet_mapVals, hbuf]
    rfl
  simp only [Oracle.push_values, hlp, if_pos hne]
  simp [hgetc]

/-- push_values reduced: no transition (no previous push, or the previous
push lies in the window of now) and the caller is in the roster. -/
theorem push_values_eq_plain_found (o : Oracle) (src now : Nat) (vals : List Nat)
    (hpp : ∀ prev, o.last_push_period = some prev →
      prev = o.period_handler.get_period now)
    (buf : List ExternalValue) (hbuf : btreeGet o.sources src = some buf) :
    o.push_values src now vals =
      ({ o with
          last_push_period := some (o.period_handler.get_period now),
          sources := (btreeModify o.sources src
            (fun _ => zipUpdate buf vals now)) },
       Except.ok ()) := by
  cases hlp : o.last_push_period with
  | none =>
      simp only [Oracle.push_values, hlp]
      simp [hbuf]
  | some p =>
      have hp := hpp p hlp
      subst hp
      simp only [Oracle.push_values, hlp]
      simp [hbuf]

/-- push_values reduced: no transition and the caller is not in the roster. -/
theorem push_values_eq_plain_missing (o : Oracle) (src now : Nat) (vals : List Nat)
    (hpp : ∀ prev, o.last_push_period = some prev →
      prev = o.period_handler.get_period now)
    (hbuf : btreeGet o.sources src = none) :
    o.push_values src now vals =
      ({ o with last_push_period := some (o.period_handler.get_period now) },
       Except.error OracleError.SourcePermissionDenied) := by
  cases hlp : o.last_push_period with
  | none =>
      simp only [Oracle.push_values, hlp]
      simp [hbuf]
  | some p =>
      have hp := hpp p hlp
      subst hp
      simp only [Oracle.push_values, hlp]
      simp [hbuf]

/-- Lookup in the buffers after store_pushed_data plus clear_pushed_data. -/
theorem btreeGet_cleared (o : Oracle) (prev s : Nat) :
    btreeGet ((o.store_pushed_data prev).clear_pushed_data).sources s
      = (btreeGet o.sources s).map (fun buf => buf.map (fun ext => ext.clean)) := by
  simp only [Oracle.clear_pushed_data, Oracle.store_pushed_data]
  rw [btreeGet_mapVals]

/-- The transition-push buffer description, when the caller is in the
roster. -/
theorem buffersAfterTransition_of_found (o : Oracle) (src now : Nat)
    (vals : List Nat) (prev : Nat) (buf₀ : List ExternalValue)
    (hbuf : btreeGet o.sources src = some buf₀) (o' : Oracle)
    (hsources : o'.sources = btreeModify
      ((o.store_pushed_data prev).clear_pushed_data).sources src
      (fun _ => zipUpdate (buf₀.map (fun ext => ext.clean)) vals now)) :
    BuffersAfterTransitionPush o o' src now vals := by
  constructor
  · intro s
    rw [hsources, btreeGet_modify, btreeGet_cleared]
    by_cases hs : s = src <;> simp [hs, hbuf]
  · intro s buf hbufs
    rw [hsources, btreeGet_modify, btreeGet_cleared, hbufs]
    by_cases hs : s = src
    · subst hs
      have hb : buf₀ = buf := by
        rw [hbuf] at hbufs
        exact Option.some.inj hbufs
      subst hb
      rw [if_pos rfl]
      refine ⟨_, rfl, ?_, ?_⟩
      · rw [zipUpdate_length, List.length_map]
      · intro i hi
        have him : i < (buf₀.map (fun ext => ext.clean)).length := by simpa using hi
        rw [zipUpdate_getD _ _ _ _ him]
        by_cases hv : i < vals.length
        · simp [hv]
        · simp [hv, ExternalValue.clean, List.getElem?_replicate, hi]
    · rw [if_neg hs]
      refine ⟨_, rfl, by simp, ?_⟩
      intro i hi
      rw [if_neg (fun h => hs h.1 : ¬ (s = src ∧ i < vals.length))]
      exact getD_map_clean buf i hi

/-- The transition-push buffer description, when the caller is not in the
roster (nothing is written after the clear). -/
theorem buffersAfterTransition_of_missing (o : Oracle) (src now : Nat)
    (vals : List Nat) (prev : Nat)
    (hbuf : btreeGet o.sources src = none) (o' : Oracle)
    (hsources : o'.sources = ((o.store_pushed_data prev).clear_pushed_data).sources) :
    BuffersAfterTransitionPush o o' src now vals := by
  constructor
  · intro s
    rw [hsources, btreeGet_cleared]
    cases btreeGet o.sources s <;> rfl
  · intro s buf hbufs
    rw [hsources, btreeGet_cleared, hbufs]
    have hs : ¬ s = src := fun h => by
      rw [h, hbuf] at hbufs
      cases hbufs
    refine ⟨_, rfl, by simp, ?_⟩
    intro i hi
    rw [if_neg (fun h => hs h.1 : ¬ (s = src ∧ i < vals.length))]
    exact getD_map_clean buf i hi

/-- The plain-push buffer description, when the caller is in the roster. -/
theorem buffersAfterPlain_of_found (o : Oracle) (src now : Nat)
    (vals : List Nat) (buf₀ : List ExternalValue)
    (hbuf : btreeGet o.sources src = some buf₀) (o' : Oracle)
    (hsources : o'.sources = btreeModify o.sources src
      (fun _ => zipUpdate buf₀ vals now)) :
    BuffersAfterPlainPush o o' src now vals := by
  constructor
  · intro s
    rw [hsources, btreeGet_modify]
    by_cases hs : s = src <;> simp [hs, hbuf]
  · intro s buf hbufs
    rw [hsources, btreeGet_modify, hbufs]
    by_cases hs : s = src
    · subst hs
      have hb : buf₀ = buf := by
        rw [hbuf] at hbufs
        exact Option.some.inj hbufs
      subst hb
      rw [if_pos rfl]
      refine ⟨_, rfl, zipUpdate_length buf₀ vals now, ?_⟩
      intro i hi
      rw [zipUpdate_getD _ _ _ _ hi]
      by_cases hv : i < vals.length
      · simp [hv]
      · simp [hv]
    · rw [if_neg hs]
      refine ⟨buf, rfl, rfl, ?_⟩
      intro i hi
      rw [if_neg (fun h => hs h.1 : ¬ (s = src ∧ i < vals.length))]

/-- The plain-push buffer description, when the caller is not in the roster
(the buffers are untouched). -/
theorem buffersAfterPlain_of_missing (o : Oracle) (src now : Nat)
    (vals : List Nat) (hbuf : btreeGet o.sources src = none) (o' : Oracle)
    (hsources : o'.sources = o.sources) :
    BuffersAfterPlainPush o o' src now vals := by
  constructor
  · intro s
    rw [hsources]
  · intro s buf hbufs
    rw [hsources, hbufs]
    have hs : ¬ s = src := fun h => by
      rw [h, hbuf] at hbufs
      cases hbufs
    refine ⟨buf, rfl, rfl, ?_⟩
    intro i hi
    rw [if_neg (fun h => hs h.1 : ¬ (s = src ∧ i < vals.length))]

/-- Claim C3: on the first push of a new window (last_push_period = Some prev
with prev differing from the window of now), and only then, push_values
performs the window transition before writing the caller's buffer:
prev_period_source is rewritten slot-selectively from the old buffers (a slot
is carried over exactly when values[slot].last_changed is absent or lies
outside window prev), every reporter buffer is cleared to all-clean (the
caller's then receiving the pushed values), and last_push_period becomes
Some(window(now)); otherwise prev_period_source is untouched and only the
caller's buffer is written; values is never mutated by push_values. -/
theorem push_values_window_transition (o : Oracle) (src now : Nat)
    (vals : List Nat) :
    (o.push_values src now vals).1.values = o.values ∧
    (o.push_values src now vals).1.last_push_period
      = some (o.period_handler.get_period now) ∧
    (∀ prev, o.last_push_period = some prev →
      prev ≠ o.period_handler.get_period now →
      SnapshotSpec o (o.push_values src now vals).1 prev ∧
      BuffersAfterTransitionPush o (o.push_values src now vals).1 src now vals) ∧
    ((o.last_push_period = none ∨
        o.last_push_period = some (o.period_handler.get_period now)) →
      (o.push_values src now vals).1.prev_period_source = o.prev_period_source ∧
      BuffersAfterPlainPush o (o.push_values src now vals).1 src now vals) := by
  cases hlp : o.last_push_period with
  | none =>
      have hpp : ∀ prev, o.last_push_period = some prev →
          prev = o.period_handler.get_period now := by
        intro prev hprev
        rw [hlp] at hprev
        cases hprev
      cases hbuf : btreeGet o.sources src with
      | some buf =>
          have hred := push_values_eq_plain_found o src now vals hpp buf hbuf
          refine ⟨by rw [hred], by rw [hred], ?_, ?_⟩
          · intro prev hprev
            cases hprev
          · intro _
            exact ⟨by rw [hred],
              buffersAfterPlain_of_found o src now vals buf hbuf _ (by rw [hred])⟩
      | none =>
          have hred := push_values_eq_plain_missing o src now vals hpp hbuf
          refine ⟨by rw [hred], by rw [hred], ?_, ?_⟩
          · intro prev hprev
            cases hprev
          · intro _
            exact ⟨by rw [hred],
              buffersAfterPlain_of_missing o src now vals hbuf _ (by rw [hred])⟩
  | some prev₀ =>
      by_cases hne : prev₀ = o.period_handler.get_period now
      · have hpp : ∀ prev, o.last_push_period = some prev →
            prev = o.period_handler.get_period now := by
          intro prev hprev
          rw [hlp] at hprev
          exact (Option.some.inj hprev) ▸ hne
        cases hbuf : btreeGet o.sources src with
        | some buf =>
            have hred := push_values_eq_plain_found o src now vals hpp buf hbuf
            refine ⟨by rw [hred], by rw [hred], ?_, ?_⟩
            · intro prev hprev hne₂
              exact absurd ((Option.some.inj hprev) ▸ hne) hne₂
            · intro _
              exact ⟨by rw [hred],
                buffersAfterPlain_of_found o src now vals buf hbuf _ (by rw [hred])⟩
        | none =>
            have hred := push_values_eq_plain_missing o src now vals hpp hbuf
            refine ⟨by rw [hred], by rw [hred], ?_, ?_⟩
            · intro prev hprev hne₂
              exact absurd ((Option.some.inj hprev) ▸ hne) hne₂
            · intro _
              exact ⟨by rw [hred],
                buffersAfterPlain_of_missing o src now vals hbuf _ (by rw [hred])⟩
      · cases hbuf : btreeGet o.sources src with
        | some buf =>
            have hred := push_values_eq_transition_found o src now vals prev₀ hlp
              hne buf hbuf
            refine ⟨by rw [hred]; rfl, by rw [hred], ?_, ?_⟩
            · intro prev hprev hne₂
              obtain rfl : prev₀ = prev := Option.some.inj hprev
              refine ⟨?_, ?_⟩
              · refine snapshotSpec_congr o (o.store_pushed_data prev₀) _ prev₀
                  (snapshotSpec_store o prev₀) ?_
                rw [hred]
                rfl
              · exact buffersAfterTransition_of_found o src now vals prev₀ buf hbuf _
                  (by rw [hred])
            · intro habs
              rcases habs with habs | habs
              · cases habs
              · exact absurd (Option.some.inj habs) hne
        | none =>
            have hred := push_values_eq_transition_missing o src now vals prev₀ hlp
              hne hbuf
            refine ⟨by rw [hred]; rfl, by rw [hred], ?_, ?_⟩
            · intro prev hprev hne₂
              obtain rfl : prev₀ = prev := Option.some.inj hprev
              refine ⟨?_, ?_⟩
              · refine snapshotSpec_congr o (o.store_pushed_data prev₀) _ prev₀
                  (snapshotSpec_store o prev₀) ?_
                rw [hred]
                rfl
              · exact buffersAfterTransition_of_missing o src now vals prev₀ hbuf _
                  (by rw [hred])
            · intro habs
              rcases habs with habs | habs
              · cases habs
              · exact absurd (Option.some.inj habs) hne

/-- The ascending insertion sort of a list is the canonical ascending
enumeration of the multiset it carries. -/
theorem insertionSort_eq_sort (l : List Nat) :
    List.insertionSort (· ≤ ·) l = Multiset.sort (· ≤ ·) (↑l : Multiset Nat) := by
  apply List.eq_of_perm_of_sorted (r := (· ≤ ·))
  · exact (List.perm_insertionSort _ l).trans
      (Multiset.coe_eq_coe.mp (Multiset.sort_eq (· ≤ ·) (↑l : Multiset Nat)).symm)
  · exact List.sorted_insertionSort _ l
  · exact Multiset.sort_sorted _ _

/-- get_median agrees with the mathematical multiset median once its even
pair is averaged with floor division. -/
theorem medianSpec_of_get_median (l : List Nat) :
    medianSpec (↑l : Multiset Nat) =
      (match get_median l with
       | some (Median.Value v) => some v
       | some (Median.Pair a b) => some ((a + b) / 2)
       | none => none) := by
  unfold medianSpec get_median
  rw [← insertionSort_eq_sort]
  by_cases h1 : l.length ≤ 1
  · simp [h1]
  · by_cases h2 : l.length % 2 = 0
    · simp [h1, h2]
    · simp [h1, h2]

/-- A successful calculate_value returns and stores the multiset median of
the assembled candidates. -/
theorem calculate_value_ok_median (o : Oracle) (slot now : Nat) (o' : Oracle)
    (v : Nat) (hlen : o.names.length ≤ o.values.length)
    (hcalc : o.calculate_value slot now = (o', Except.ok v)) :
    ∃ M, o.get_actual_value_variants slot now = Except.ok M ∧
      2 ≤ M.length ∧ medianSpec (↑M : Multiset Nat) = some v ∧
      o'.values.getD slot ExternalValue.default
        = ExternalValue.mk (some v) (some now) := by
  by_cases h1 : o.is_sources_enough = true
  · by_cases h2 : (match o.last_push_period with
        | some period => o.period_handler.get_period now != period
        | none => true : Bool) = true
    · simp [Oracle.calculate_value, h1, h2] at hcalc
    · cases hvar : o.get_actual_value_variants slot now with
      | error e => simp [Oracle.calculate_value, h1, h2, hvar] at hcalc
      | ok M =>
          have hslot : slot < o.get_values_count := by
            by_contra hc
            simp [Oracle.get_actual_value_variants, Oracle.is_value_id_correct, hc]
              at hvar
          have hslotv : slot < o.values.length :=
            Nat.lt_of_lt_of_le hslot hlen
          by_cases h3 : M.length < o.source_limit
          · simp [Oracle.calculate_value, h1, h2, hvar, h3] at hcalc
          · cases hmed : get_median M with
            | none => simp [Oracle.calculate_value, h1, h2, hvar, h3, hmed] at hcalc
            | some med =>
                have hlen2 : 2 ≤ M.length := by
                  by_contra hc
                  simp [get_median] at hmed
                  have h1M := hmed.1
                  omega
                have hstored : ∀ w : Nat,
                    ((o.values.set slot
                      ((o.values.getD slot ExternalValue.default).update w now)).getD
                        slot ExternalValue.default)
                      = ExternalValue.mk (some w) (some now) := by
                  intro w
                  rw [List.getD_eq_getElem _ _ (by simpa using hslotv)]
                  rw [List.getElem_set_self (by simpa using hslotv)]
                  rfl
                cases med with
                | Value v₀ =>
                    simp [Oracle.calculate_value, h1, h2, hvar, h3, hmed,
                      Prod.mk.injEq] at hcalc
                    obtain ⟨ho', hv⟩ := hcalc
                    subst hv
                    subst ho'
                    refine ⟨M, rfl, hlen2, ?_, ?_⟩
                    · rw [medianSpec_of_get_median M, hmed]
                    · exact hstored v₀
                | Pair a b =>
                    simp [Oracle.calculate_value, h1, h2, hvar, h3, hmed,
                      Prod.mk.injEq] at hcalc
                    obtain ⟨ho', hv⟩ := hcalc
                    subst hv
                    subst ho'
                    refine ⟨M, rfl, hlen2, ?_, ?_⟩
                    · rw [medianSpec_of_get_median M, hmed]
                    · exact hstored _
  · simp [Oracle.calculate_value, h1] at hcalc

/-- Claim C2: whenever calculate_value succeeds, the returned value is the
mathematical median of the assembled candidate multiset M with two or more
members (odd cardinality: the middle element of the ascending enumeration;
even: the floor of the exact average of the two middle elements, the
intermediate sum being an unbounded natural number and hence free of
overflow), and that value is stored in the slot with moment now. -/
theorem calculate_value_median_correct (o : Oracle) (slot now : Nat) (o' : Oracle)
    (v : Nat) (hlen : o.names.length ≤ o.values.length)
    (hcalc : o.calculate_value slot now = (o', Except.ok v)) :
    ∃ M, o.get_actual_value_variants slot now = Except.ok M ∧
      2 ≤ M.length ∧ medianSpec (↑M : Multiset Nat) = some v ∧
      o'.values.getD slot ExternalValue.default
        = ExternalValue.mk (some v) (some now) :=
  calculate_value_ok_median o slot now o' v hlen hcalc

/-- Claim C2 witness: the statement applied to exQuorum (candidates 3 and 8
in slot 0), whose calculate_value at moment 7 returns the floor average 5. -/
theorem calculate_value_median_witness :
    ∃ M, exQuorum.get_actual_value_variants 0 7 = Except.ok M ∧
      2 ≤ M.length ∧ medianSpec (↑M : Multiset Nat) = some 5 ∧
      (exQuorum.calculate_value 0 7).1.values.getD 0 ExternalValue.default
        = ExternalValue.mk (some 5) (some 7) :=
  calculate_value_median_correct exQuorum 0 7 (exQuorum.calculate_value 0 7).1 5
    (by decide) (by decide)

/-- Buffer lengths propagate through a state change that keeps the key set
and the per-key buffer length. -/
theorem bufferLens_of_components (o o' : Oracle)
    (hiso : ∀ s, (btreeGet o'.sources s).isSome = (btreeGet o.sources s).isSome)
    (hmain : ∀ s buf, btreeGet o.sources s = some buf →
      ∃ buf', btreeGet o'.sources s = some buf' ∧ buf'.length = buf.length)
    (hs : ∀ s buf, btreeGet o.sources s = some buf → buf.length = o.names.length) :
    ∀ s buf, btreeGet o'.sources s = some buf → buf.length = o.names.length := by
  intro s buf hbuf
  have hsome : (btreeGet o.sources s).isSome = true := by
    rw [← hiso s, hbuf]
    rfl
  obtain ⟨buf₀, hbuf₀⟩ := Option.isSome_iff_exists.mp hsome
  obtain ⟨buf'', hget'', hlen''⟩ := hmain s buf₀ hbuf₀
  obtain rfl : buf'' = buf := by
    rw [hbuf] at hget''
    exact (Option.some.inj hget'').symm
  rw [hlen'']
  exact hs s buf₀ hbuf₀

/-- update_sources keeps names and values, and keeps every buffer at
slot-count length when the previous buffers had it. -/
theorem update_sources_shape (o : Oracle) (roster : List Nat) :
    (o.update_sources roster).1.names = o.names ∧
    (o.update_sources roster).1.values = o.values ∧
    ((∀ s buf, btreeGet o.sources s = some buf → buf.length = o.names.length) →
      ∀ s buf, btreeGet (o.update_sources roster).1.sources s = some buf →
        buf.length = o.names.length) := by
  have h1 : (o.update_sources roster).1 = { o with sources := (btreeOfList (roster.map (fun account => (account, (btreeGet o.sources account).getD (List.replicate o.get_values_count ExternalValue.default))))) } := by
    simp only [Oracle.update_sources]
    split <;> rfl
  rw [h1]
  refine ⟨rfl, rfl, ?_⟩
  intro hs s buf hbuf
  have hmem := btreeGet_ofList_mem _ _ _ hbuf
  rw [List.mem_map] at hmem
  obtain ⟨account, hacct, heq⟩ := hmem
  obtain ⟨heq1, heq2⟩ := Prod.mk.injEq _ _ _ _ ▸ heq
  cases hg : btreeGet o.sources account with
  | some old =>
      rw [hg] at heq2
      obtain rfl : old = buf := heq2
      exact hs account old hg
  | none =>
      rw [hg] at heq2
      obtain rfl : List.replicate o.get_values_count ExternalValue.default = buf := heq2
      simp [Oracle.get_values_count]

/-- push_values keeps names and values, and keeps every buffer at slot-count
length when the previous buffers had it. -/
theorem push_values_shape (o : Oracle) (src now : Nat) (vals : List Nat) :
    (o.push_values src now vals).1.names = o.names ∧
    (o.push_values src now vals).1.values = o.values ∧
    ((∀ s buf, btreeGet o.sources s = some buf → buf.length = o.names.length) →
      ∀ s buf, btreeGet (o.push_values src now vals).1.sources s = some buf →
        buf.length = o.names.length) := by
  cases hlp : o.last_push_period with
  | none =>
      have hpp : ∀ prev, o.last_push_period = some prev →
          prev = o.period_handler.get_period now := by
        intro prev h
        rw [hlp] at h
        cases h
      cases hbuf : btreeGet o.sources src with
      | some buf₀ =>
          have hred := push_values_eq_plain_found o src now vals hpp buf₀ hbuf
          have hspec := buffersAfterPlain_of_found o src now vals buf₀ hbuf
            (o.push_values src now vals).1 (by rw [hred])
          exact ⟨by rw [hred], by rw [hred], fun hs => bufferLens_of_components o _
            hspec.1 (fun s buf h =>
              (hspec.2 s buf h).elim (fun b hb => ⟨b, hb.1, hb.2.1⟩)) hs⟩
      | none =>
          have hred := push_values_eq_plain_missing o src now vals hpp hbuf
          have hspec := buffersAfterPlain_of_missing o src now vals hbuf
            (o.push_values src now vals).1 (by rw [hred])
          exact ⟨by rw [hred], by rw [hred], fun hs => bufferLens_of_components o _
            hspec.1 (fun s buf h =>
              (hspec.2 s buf h).elim (fun b hb => ⟨b, hb.1, hb.2.1⟩)) hs⟩
  | some prev₀ =>
      by_cases hne : prev₀ ≠ o.period_handler.get_period now
      · cases hbuf : btreeGet o.sources src with
        | some buf₀ =>
            have hred := push_values_eq_transition_found o src now vals prev₀ hlp
              hne buf₀ hbuf
            have hspec := buffersAfterTransition_of_found o src now vals prev₀ buf₀
              hbuf (o.push_values src now vals).1 (by rw [hred])
            exact ⟨by rw [hred]; rfl, by rw [hred]; rfl,
              fun hs => bufferLens_of_components o _ hspec.1 (fun s buf h =>
                (hspec.2 s buf h).elim (fun b hb => ⟨b, hb.1, hb.2.1⟩)) hs⟩
        | none =>
            have hred := push_values_eq_transition_missing o src now vals prev₀ hlp
              hne hbuf
            have hspec := buffersAfterTransition_of_missing o src now vals prev₀
              hbuf (o.push_values src now vals).1 (by rw [hred])
            exact ⟨by rw [hred]; rfl, by rw [hred]; rfl,
              fun hs => bufferLens_of_components o _ hspec.1 (fun s buf h =>
                (hspec.2 s buf h).elim (fun b hb => ⟨b, hb.1, hb.2.1⟩)) hs⟩
      · have hpp : ∀ prev, o.last_push_period = some prev →
            prev = o.period_handler.get_period now := by
          intro prev h
          rw [hlp] at h
          rw [← Option.some.inj h]
          by_contra hc
          exact hne (fun he => hc (by rw [he]))
        cases hbuf : btreeGet o.sources src with
        | some buf₀ =>
            have hred := push_values_eq_plain_found o src now vals hpp buf₀ hbuf
            have hspec := buffersAfterPlain_of_found o src now vals buf₀ hbuf
              (o.push_values src now vals).1 (by rw [hred])
            exact ⟨by rw [hred], by rw [hred], fun hs => bufferLens_of_components o _
              hspec.1 (fun s buf h =>
                (hspec.2 s buf h).elim (fun b hb => ⟨b, hb.1, hb.2.1⟩)) hs⟩
        | none =>
            have hred := push_values_eq_plain_missing o src now vals hpp hbuf
            have hspec := buffersAfterPlain_of_missing o src now vals hbuf
              (o.push_values src now vals).1 (by rw [hred])
            exact ⟨by rw [hred], by rw [hred], fun hs => bufferLens_of_components o _
              hspec.1 (fun s buf h =>
                (hspec.2 s buf h).elim (fun b hb => ⟨b, hb.1, hb.2.1⟩)) hs⟩

/-- Buffer lengths survive clear_pushed_data. -/
theorem clear_shape (o : Oracle)
    (hs : ∀ s buf, btreeGet o.sources s = some buf → buf.length = o.names.length) :
    ∀ s buf, btreeGet o.clear_pushed_data.sources s = some buf →
      buf.length = o.names.length := by
  intro s buf hbuf
  simp only [Oracle.clear_pushed_data] at hbuf
  rw [btreeGet_mapVals] at hbuf
  cases hold : btreeGet o.sources s with
  | none =>
      rw [hold] at hbuf
      cases hbuf
  | some old =>
      rw [hold] at hbuf
      obtain rfl : old.map (fun ext => ext.clean) = buf := Option.some.inj hbuf
      rw [List.length_map]
      exact hs s old hold

/-- calculate_value keeps names, the length of values, and the buffer
shape. -/
theorem calculate_value_shape (o : Oracle) (slot now : Nat) :
    (o.calculate_value slot now).1.names = o.names ∧
    (o.calculate_value slot now).1.values.length = o.values.length ∧
    ((∀ s buf, btreeGet o.sources s = some buf → buf.length = o.names.length) →
      ∀ s buf, btreeGet (o.calculate_value slot now).1.sources s = some buf →
        buf.length = o.names.length) := by
  by_cases h1 : o.is_sources_enough = true
  · by_cases h2 : (match o.last_push_period with
        | some period => o.period_handler.get_period now != period
        | none => true : Bool) = true
    · have hst : (o.calculate_value slot now).1 = o.clear_pushed_data := by
        simp [Oracle.calculate_value, h1, h2]
      rw [hst]
      exact ⟨rfl, rfl, clear_shape o⟩
    · cases hvar : o.get_actual_value_variants slot now with
      | error e =>
          have hst : (o.calculate_value slot now).1 = o := by
            simp [Oracle.calculate_value, h1, h2, hvar]
          rw [hst]
          exact ⟨rfl, rfl, fun hs => hs⟩
      | ok M =>
          by_cases h3 : M.length < o.source_limit
          · have hst : (o.calculate_value slot now).1 = o := by
              simp [Oracle.calculate_value, h1, h2, hvar, h3]
            rw [hst]
            exact ⟨rfl, rfl, fun hs => hs⟩
          · cases hmed : get_median M with
            | none =>
                have hst : (o.calculate_value slot now).1 = o := by
                  simp [Oracle.calculate_value, h1, h2, hvar, h3, hmed]
                rw [hst]
                exact ⟨rfl, rfl, fun hs => hs⟩
            | some med =>
                cases med with
                | Value v₀ =>
                    have hst : (o.calculate_value slot now).1 = { o with
                        values := (o.values.set slot
                          ((o.values.getD slot ExternalValue.default).update v₀ now)) } := by
                      simp [Oracle.calculate_value, h1, h2, hvar, h3, hmed]
                    rw [hst]
                    exact ⟨rfl, by simp, fun hs => hs⟩
                | Pair a b =>
                    have hst : (o.calculate_value slot now).1 = { o with
                        values := (o.values.set slot
                          ((o.values.getD slot ExternalValue.default).update
                            ((a + b) / (1 + 1)) now)) } := by
                      simp [Oracle.calculate_value, h1, h2, hvar, h3, hmed]
                    rw [hst]
                    exact ⟨rfl, by simp, fun hs => hs⟩
  · have hst : (o.calculate_value slot now).1 = o := by
      simp [Oracle.calculate_value, h1]
    rw [hst]
    exact ⟨rfl, rfl, fun hs => hs⟩

/-- One aggregator step preserves the buffer-shape invariant, provided an
add_assets step only runs on an empty roster. -/
theorem inv_preserved_astep (o : Oracle) (op : AOp)
    (hv : o.values.length = o.names.length)
    (hs : ∀ s buf, btreeGet o.sources s = some buf → buf.length = o.names.length)
    (hadd : ∀ name, op = AOp.aadd name → o.sources = []) :
    (astep o op).values.length = (astep o op).names.length ∧
    ∀ s buf, btreeGet (astep o op).sources s = some buf →
      buf.length = (astep o op).names.length := by
  cases op with
  | aupdate roster =>
      obtain ⟨hn, hval, hbufs⟩ := update_sources_shape o roster
      refine ⟨?_, ?_⟩
      · show (o.update_sources roster).1.values.length
          = (o.update_sources roster).1.names.length
        rw [hval, hn]
        exact hv
      · intro s buf hbuf
        show buf.length = (o.update_sources roster).1.names.length
        rw [hn]
        exact hbufs hs s buf hbuf
  | aadd name =>
      have hempty := hadd name rfl
      refine ⟨?_, ?_⟩
      · simp [astep, Oracle.add_assets, hv]
      · intro s buf hbuf
        have : btreeGet o.sources s = some buf := hbuf
        rw [hempty] at this
        cases this
  | apush src now vals =>
      obtain ⟨hn, hval, hbufs⟩ := push_values_shape o src now vals
      refine ⟨?_, ?_⟩
      · show (o.push_values src now vals).1.values.length
          = (o.push_values src now vals).1.names.length
        rw [hval, hn]
        exact hv
      · intro s buf hbuf
        show buf.length = (o.push_values src now vals).1.names.length
        rw [hn]
        exact hbufs hs s buf hbuf
  | acalc slot now =>
      obtain ⟨hn, hval, hbufs⟩ := calculate_value_shape o slot now
      refine ⟨?_, ?_⟩
      · show (o.calculate_value slot now).1.values.length
          = (o.calculate_value slot now).1.names.length
        rw [hval, hn]
        exact hv
      · intro s buf hbuf
        show buf.length = (o.calculate_value slot now).1.names.length
        rw [hn]
        exact hbufs hs s buf hbuf

/-- The buffer-shape invariant carried along a whole aggregator run. -/
theorem inv_arun (ops : List AOp) (o : Oracle)
    (hv : o.values.length = o.names.length)
    (hs : ∀ s buf, btreeGet o.sources s = some buf → buf.length = o.names.length)
    (hadd : addsOnlyWhenEmpty o ops) :
    (arun o ops).values.length = (arun o ops).names.length ∧
    ∀ s buf, btreeGet (arun o ops).sources s = some buf →
      buf.length = (arun o ops).names.length := by
  induction ops generalizing o with
  | nil => exact ⟨hv, hs⟩
  | cons op rest ih =>
      obtain ⟨hadd1, haddrest⟩ := hadd
      obtain ⟨hv', hs'⟩ := inv_preserved_astep o op hv hs hadd1
      exact ih (astep o op) hv' hs' haddrest

/-- The length of values tracks the length of names through every aggregator
step, add_assets included. -/
theorem values_len_astep (o : Oracle) (op : AOp)
    (hv : o.values.length = o.names.length) :
    (astep o op).values.length = (astep o op).names.length := by
  cases op with
  | aupdate roster =>
      obtain ⟨hn, hval, _⟩ := update_sources_shape o roster
      show (o.update_sources roster).1.values.length
        = (o.update_sources roster).1.names.length
      rw [hval, hn]
      exact hv
  | aadd name => simp [astep, Oracle.add_assets, hv]
  | apush src now vals =>
      obtain ⟨hn, hval, _⟩ := push_values_shape o src now vals
      show (o.push_values src now vals).1.values.length
        = (o.push_values src now vals).1.names.length
      rw [hval, hn]
      exact hv
  | acalc slot now =>
      obtain ⟨hn, hval, _⟩ := calculate_value_shape o slot now
      show (o.calculate_value slot now).1.values.length
        = (o.calculate_value slot now).1.names.length
      rw [hval, hn]
      exact hv

/-- The values-length half of the shape invariant along a whole run. -/
theorem values_len_arun (ops : List AOp) (o : Oracle)
    (hv : o.values.length = o.names.length) :
    (arun o ops).values.length = (arun o ops).names.length := by
  induction ops generalizing o with
  | nil => exact hv
  | cons op rest ih => exact ih (astep o op) (values_len_astep o op hv)

/-- Claim C9, counterexample: from a fresh one-slot oracle, update_sources
to roster {1} followed by add_assets leaves reporter 1 with a buffer of
length 1 while the slot count is 2: add_assets extends names and values but
not the per-reporter buffers, so the buffer-shape invariant breaks at a
reachable state. -/
theorem buffer_shape_counterexample :
    btreeGet (arun (Oracle.new [] 0 exHandler 1 [[0]])
        [AOp.aupdate [1], AOp.aadd [1]]).sources 1
      = some [ExternalValue.mk none none] ∧
    (arun (Oracle.new [] 0 exHandler 1 [[0]])
        [AOp.aupdate [1], AOp.aadd [1]]).get_values_count = 2 ∧
    ¬ ([ExternalValue.mk none none] : List ExternalValue).length
        = (arun (Oracle.new [] 0 exHandler 1 [[0]])
            [AOp.aupdate [1], AOp.aadd [1]]).get_values_count := by
  refine ⟨by decide, by decide, by decide⟩

/-- Claim C9 (amended): at every state reachable from Oracle.new by
update_sources, add_assets, push_values and calculate_value,
len(values) = slot_count(); and when every add_assets call happens while the
roster is empty, also len(sources[s]) = slot_count() for every reporter s of
the roster. -/
theorem buffer_shape_invariant (name : List Nat) (table : Nat)
    (ph : PeriodHandler) (limit : Nat) (assets : List (List Nat))
    (ops : List AOp) :
    (arun (Oracle.new name table ph limit assets) ops).values.length
      = (arun (Oracle.new name table ph limit assets) ops).get_values_count ∧
    (addsOnlyWhenEmpty (Oracle.new name table ph limit assets) ops →
      ∀ s buf,
        btreeGet (arun (Oracle.new name table ph limit assets) ops).sources s
          = some buf →
        buf.length
          = (arun (Oracle.new name table ph limit assets) ops).get_values_count) := by
  have hv0 : (Oracle.new name table ph limit assets).values.length
      = (Oracle.new name table ph limit assets).names.length := by
    simp [Oracle.new]
  have hs0 : ∀ s buf,
      btreeGet (Oracle.new name table ph limit assets).sources s = some buf →
        buf.length = (Oracle.new name table ph limit assets).names.length := by
    intro s buf hbuf
    cases hbuf
  constructor
  · exact values_len_arun ops _ hv0
  · intro hadd
    exact (inv_arun ops _ hv0 hs0 hadd).2

/-- update_sources never touches the period handler. -/
theorem update_sources_ph (o : Oracle) (roster : List Nat) :
    (o.update_sources roster).1.period_handler = o.period_handler := by
  simp only [Oracle.update_sources]
  split <;> rfl

/-- push_values never touches the period handler, the names or the values. -/
theorem push_values_fields (o : Oracle) (src now : Nat) (vals : List Nat) :
    (o.push_values src now vals).1.period_handler = o.period_handler ∧
    (o.push_values src now vals).1.names = o.names ∧
    (o.push_values src now vals).1.values = o.values := by
  cases hlp : o.last_push_period with
  | none =>
      have hpp : ∀ prev, o.last_push_period = some prev →
          prev = o.period_handler.get_period now := by
        intro prev h
        rw [hlp] at h
        cases h
      rcases hbuf : btreeGet o.sources src with _ | buf₀
      · have hred := push_values_eq_plain_missing o src now vals hpp hbuf
        exact ⟨by rw [hred], by rw [hred], by rw [hred]⟩
      · have hred := push_values_eq_plain_found o src now vals hpp buf₀ hbuf
        exact ⟨by rw [hred], by rw [hred], by rw [hred]⟩
  | some prev₀ =>
      by_cases hne : prev₀ ≠ o.period_handler.get_period now
      · rcases hbuf : btreeGet o.sources src with _ | buf₀
        · have hred := push_values_eq_transition_missing o src now vals prev₀ hlp
            hne hbuf
          exact ⟨by rw [hred]; rfl, by rw [hred]; rfl, by rw [hred]; rfl⟩
        · have hred := push_values_eq_transition_found o src now vals prev₀ hlp
            hne buf₀ hbuf
          exact ⟨by rw [hred]; rfl, by rw [hred]; rfl, by rw [hred]; rfl⟩
      · have hpp : ∀ prev, o.last_push_period = some prev →
            prev = o.period_handler.get_period now := by
          intro prev h
          rw [hlp] at h
          rw [← Option.some.inj h]
          exact not_not.mp hne
        rcases hbuf : btreeGet o.sources src with _ | buf₀
        · have hred := push_values_eq_plain_missing o src now vals hpp hbuf
          exact ⟨by rw [hred], by rw [hred], by rw [hred]⟩
        · have hred := push_values_eq_plain_found o src now vals hpp buf₀ hbuf
          exact ⟨by rw [hred], by rw [hred], by rw [hred]⟩

/-- calculate_value never touches the period handler. -/
theorem calculate_value_ph (o : Oracle) (slot now : Nat) :
    (o.calculate_value slot now).1.period_handler = o.period_handler := by
  simp only [Oracle.calculate_value]
  split
  · rfl
  · split
    · rfl
    · split
      · rfl
      · split
        · rfl
        · split <;> rfl

/-- calculate_value leaves every slot other than the calculated one
unchanged. -/
theorem calculate_value_getD_other (o : Oracle) (slot' now slot : Nat)
    (hne : slot' ≠ slot) :
    (o.calculate_value slot' now).1.values.getD slot ExternalValue.default
      = o.values.getD slot ExternalValue.default := by
  have hset : ∀ x : ExternalValue,
      (o.values.set slot' x).getD slot ExternalValue.default
        = o.values.getD slot ExternalValue.default := by
    intro x
    by_cases h : slot < o.values.length
    · rw [List.getD_eq_getElem _ _ (by simpa [List.length_set] using h),
        List.getD_eq_getElem _ _ h]
      exact List.getElem_set_ne hne _
    · rw [List.getD_eq_default _ _ (by simpa [List.length_set] using Nat.le_of_not_lt h),
        List.getD_eq_default _ _ (Nat.le_of_not_lt h)]
  simp only [Oracle.calculate_value]
  split
  · rfl
  · split
    · rfl
    · split
      · rfl
      · split
        · rfl
        · split
          · exact hset _
          · exact hset _
          · rfl

/-- Case analysis of a dispatched roster refresh. -/
theorem mstep_mrefresh_spec (o : Oracle) (now : Nat) (roster : List Nat) :
    mstep o now (MOp.mrefresh roster) = (o, false) ∨
    mstep o now (MOp.mrefresh roster) = ((o.update_sources roster).1, true) := by
  simp only [mstep]
  rcases hu : o.update_sources roster with ⟨o₁, r⟩
  cases r with
  | ok val =>
      right
      rfl
  | error e =>
      left
      rfl

/-- Case analysis of a dispatched push. -/
theorem mstep_mpush_spec (o : Oracle) (now src : Nat) (vals : List Nat) :
    mstep o now (MOp.mpush src vals) = (o, false) ∨
    mstep o now (MOp.mpush src vals) = ((o.push_values src now vals).1, true) := by
  simp only [mstep]
  by_cases ha : o.period_handler.is_can_aggregate now = true
  · rcases hp : o.push_values src now vals with ⟨o₁, r⟩
    cases r with
    | ok val =>
        right
        simp [ha]
    | error e =>
        left
        simp [ha]
  · left
    simp [ha]

/-- Case analysis of a dispatched calculate. -/
theorem mstep_mcalc_spec (o : Oracle) (now slot' : Nat) :
    mstep o now (MOp.mcalc slot') = (o, false) ∨
    (∃ o₁ v, o.is_allow_calculate slot' now = Except.ok (some true) ∧
      o.calculate_value slot' now = (o₁, Except.ok v) ∧
      mstep o now (MOp.mcalc slot') = (o₁, true)) := by
  simp only [mstep]
  cases hg : o.is_allow_calculate slot' now with
  | error e => left; rfl
  | ok ob =>
      cases ob with
      | none => left; rfl
      | some b =>
          cases b with
          | false => left; rfl
          | true =>
              rcases hc : o.calculate_value slot' now with ⟨o₁, r⟩
              cases r with
              | ok v =>
                  right
                  exact ⟨o₁, v, rfl, rfl, rfl⟩
              | error e =>
                  left
                  rfl

/-- An is_allow_calculate result certifies that the slot id is in range. -/
theorem is_allow_ok_slot (o : Oracle) (slot now : Nat) (x : Option Bool)
    (hg : o.is_allow_calculate slot now = Except.ok x) :
    slot < o.names.length := by
  by_cases h : slot < o.get_values_count
  · exact h
  · simp [Oracle.is_allow_calculate, Oracle.is_value_id_correct, h] at hg

/-- The payload of a successful is_allow_calculate is the period handler's
verdict on the slot's last_changed moment. -/
theorem is_allow_ok_val (o : Oracle) (slot now : Nat) (x : Option Bool)
    (hg : o.is_allow_calculate slot now = Except.ok x) :
    x = o.period_handler.is_can_calculate
      ((o.values.getD slot ExternalValue.default).last_changed) now := by
  simp only [Oracle.is_allow_calculate] at hg
  cases hvc : o.is_value_id_correct slot with
  | error e =>
      rw [hvc] at hg
      cases hg
  | ok u =>
      rw [hvc] at hg
      exact (Except.ok.inj hg).symm

/-- A true is_can_calculate verdict over a non-future last moment forces the
window to advance, or to stay equal only in the Aggregate-then-Calculate
pattern. -/
theorem is_can_calculate_true_progress (h : PeriodHandler) (t now : Nat)
    (hle : h.get_period t ≤ h.get_period now)
    (htrue : h.is_can_calculate (some t) now = some true) :
    h.get_period t < h.get_period now ∨
      (h.get_period t = h.get_period now ∧ h.get_part t = Part.Aggregate ∧
        h.get_part now = Part.Calculate) := by
  rcases Nat.lt_or_ge (h.get_period t) (h.get_period now) with hlt | hge
  · exact Or.inl hlt
  · have heq : h.get_period t = h.get_period now := Nat.le_antisymm hle hge
    have hcmp : compare (h.get_period now) (h.get_period t) = Ordering.eq :=
      Nat.compare_eq_eq.mpr heq.symm
    right
    refine ⟨heq, ?_⟩
    simp only [PeriodHandler.is_can_calculate, hcmp, Option.some.injEq] at htrue
    cases hpt : h.get_part t <;> cases hpn : h.get_part now <;>
      rw [hpt, hpn] at htrue <;> simp_all

/-- A dispatched step that is not a successful calculate on the given slot
leaves that slot's published value, the names, the length of values and the
period handler unchanged. -/
theorem mstep_untouched (o : Oracle) (now : Nat) (op : MOp) (slot : Nat)
    (hnot : ¬ (op = MOp.mcalc slot ∧ (mstep o now op).2 = true)) :
    (mstep o now op).1.values.getD slot ExternalValue.default
      = o.values.getD slot ExternalValue.default ∧
    (mstep o now op).1.names = o.names ∧
    (mstep o now op).1.values.length = o.values.length ∧
    (mstep o now op).1.period_handler = o.period_handler := by
  cases op with
  | mrefresh roster =>
      rcases mstep_mrefresh_spec o now roster with h | h <;> rw [h]
      · exact ⟨rfl, rfl, rfl, rfl⟩
      · obtain ⟨hn, hval, _⟩ := update_sources_shape o roster
        exact ⟨by rw [hval], hn, by rw [hval], update_sources_ph o roster⟩
  | mpush src vals =>
      rcases mstep_mpush_spec o now src vals with h | h <;> rw [h]
      · exact ⟨rfl, rfl, rfl, rfl⟩
      · obtain ⟨hph, hn, hval⟩ := push_values_fields o src now vals
        exact ⟨by rw [hval], hn, by rw [hval], hph⟩
  | mcalc slot' =>
      rcases mstep_mcalc_spec o now slot' with h | h
      · rw [h]
        exact ⟨rfl, rfl, rfl, rfl⟩
      · obtain ⟨o₁, v, hg, hok, heq⟩ := h
        have hne : slot' ≠ slot := by
          intro he
          exact hnot ⟨by rw [he], by rw [heq]⟩
        rw [heq]
        have ho₁ : o₁ = (o.calculate_value slot' now).1 := by rw [hok]
        obtain ⟨hn, hlen, _⟩ := calculate_value_shape o slot' now
        refine ⟨?_, ?_, ?_, ?_⟩
        · rw [ho₁]
          exact calculate_value_getD_other o slot' now slot hne
        · rw [ho₁]
          exact hn
        · rw [ho₁]
          exact hlen
        · rw [ho₁]
          exact calculate_value_ph o slot' now

/-- A dispatched run without a successful calculate on the slot leaves that
slot's published value, the names, the length of values and the period
handler unchanged. -/
theorem mrun_untouched (slot : Nat) (tr : List (Nat × MOp)) (o : Oracle)
    (hno : noCalcSuccessOn slot o tr) :
    (mrun o tr).values.getD slot ExternalValue.default
      = o.values.getD slot ExternalValue.default ∧
    (mrun o tr).names = o.names ∧
    (mrun o tr).values.length = o.values.length ∧
    (mrun o tr).period_handler = o.period_handler := by
  induction tr generalizing o with
  | nil => exact ⟨rfl, rfl, rfl, rfl⟩
  | cons p rest ih =>
      obtain ⟨pn, pop⟩ := p
      obtain ⟨hnot, hrest⟩ := hno
      obtain ⟨h1, h2, h3, h4⟩ := ih (mstep o pn pop).1 hrest
      obtain ⟨g1, g2, g3, g4⟩ := mstep_untouched o pn pop slot hnot
      have hrm : mrun o ((pn, pop) :: rest) = mrun (mstep o pn pop).1 rest := rfl
      rw [hrm]
      exact ⟨h1.trans g1, h2.trans g2, h3.trans g3, h4.trans g4⟩

/-- Claim C8, counterexample: a reachable execution with non-decreasing
moments (the trace exTrace0, then dispatched calculates at moments 12 and 16)
in which two successive dispatched calculates on slot 0 both succeed inside
the same window: the first at moment 12 (window 1, Aggregate part, the
carry-over publication of window 0 data), the second at moment 16 (window 1,
Calculate part); the window number of now does not strictly increase between
them. -/
theorem calc_twice_same_window :
    (mstep exS1 12 (MOp.mcalc 0)).2 = true ∧
    (mstep exS2 16 (MOp.mcalc 0)).2 = true ∧
    exS1.period_handler.get_period 12 = exS1.period_handler.get_period 16 := by
  refine ⟨by decide, by decide, by decide⟩

/-- Claim C8 (amended): between two successive successful dispatched
calculates on the same slot, driven by non-decreasing now, the window number
of now never decreases, and it stays equal only when the earlier success ran
in the Aggregate part and the later in the Calculate part of that window;
otherwise it strictly increases. -/
theorem calc_success_window_progress (o : Oracle) (slot n₁ n₂ : Nat)
    (tr : List (Nat × MOp))
    (hlen : o.names.length ≤ o.values.length)
    (h₁ : (mstep o n₁ (MOp.mcalc slot)).2 = true)
    (hno : noCalcSuccessOn slot (mstep o n₁ (MOp.mcalc slot)).1 tr)
    (h₂ : (mstep (mrun (mstep o n₁ (MOp.mcalc slot)).1 tr) n₂
      (MOp.mcalc slot)).2 = true)
    (hmono : n₁ ≤ n₂) :
    o.period_handler.get_period n₁ < o.period_handler.get_period n₂ ∨
      (o.period_handler.get_period n₁ = o.period_handler.get_period n₂ ∧
        o.period_handler.get_part n₁ = Part.Aggregate ∧
        o.period_handler.get_part n₂ = Part.Calculate) := by
  rcases mstep_mcalc_spec o n₁ slot with hfail | hsucc
  · rw [hfail] at h₁
    simp at h₁
  obtain ⟨o₁, v, hg, hok, heq⟩ := hsucc
  have hmom : (o₁.values.getD slot ExternalValue.default).last_changed
      = some n₁ := by
    obtain ⟨M, _, _, _, hstore⟩ := calculate_value_ok_median o slot n₁ o₁ v hlen hok
    rw [hstore]
  have hstep1 : (mstep o n₁ (MOp.mcalc slot)).1 = o₁ := by rw [heq]
  rw [hstep1] at hno h₂
  obtain ⟨hval, hnames, hlenv, hph⟩ := mrun_untouched slot tr o₁ hno
  rcases mstep_mcalc_spec (mrun o₁ tr) n₂ slot with hfail2 | hsucc2
  · rw [hfail2] at h₂
    simp at h₂
  obtain ⟨o₂, v₂, hg₂, hok₂, heq₂⟩ := hsucc2
  have hx := is_allow_ok_val (mrun o₁ tr) slot n₂ _ hg₂
  have hmom2 : ((mrun o₁ tr).values.getD slot ExternalValue.default).last_changed
      = some n₁ := by
    rw [hval, hmom]
  rw [hmom2] at hx
  have hph1 : o₁.period_handler = o.period_handler := by
    rw [show o₁ = (o.calculate_value slot n₁).1 from by rw [hok]]
    exact calculate_value_ph o slot n₁
  rw [hph, hph1] at hx
  have hle : o.period_handler.get_period n₁ ≤ o.period_handler.get_period n₂ :=
    o.period_handler.get_period_mono hmono
  exact is_can_calculate_true_progress o.period_handler n₁ n₂ hle hx.symm

/-- Claim C8 witness: the amended statement applied to the concrete
scenario: the two dispatched calculates on slot 0 at moments 12 and 16 from
exS1 both succeed, with an empty intermediate trace, and land in the
Aggregate-then-Calculate pattern of window 1. -/
theorem calc_success_window_progress_witness :
    exS1.period_handler.get_period 12 < exS1.period_handler.get_period 16 ∨
      (exS1.period_handler.get_period 12 = exS1.period_handler.get_period 16 ∧
        exS1.period_handler.get_part 12 = Part.Aggregate ∧
        exS1.period_handler.get_part 16 = Part.Calculate) :=
  calc_success_window_progress exS1 0 12 16 [] (by decide) (by decide)
    (by constructor) (by decide) (by decide)

end SubstrateOracle
